import Mathlib

/-!
Verification of the Avida associative lookup core (`tHashTable.h` /
`tDictionary.h`): a bucketed hash table built on one shared entry list with
bucket-head pointers into that list, and the fuzzy-lookup dictionary layer.

The C++ entry list is a doubly linked list whose nodes are addressed by
pointers; bucket cells hold node pointers.  We embed the list as a Lean
`List` of entries and a cell as the *position* of its node in that list.
A node pointer is stable while positions shift, so every operation that
inserts or erases at position `i` explicitly re-indexes the cells exactly
the way the surviving node pointers move (`+1` for positions at or after an
insertion point, `-1` for positions after an erased one).
-/

set_option autoImplicit false

universe u v

namespace Avida

/-- Entry stored in the table (`tHashEntry`): the key, the cached bucket
`id` the key hashed to at insertion/last-rehash time, and the data. -/
structure tHashEntry (K : Type u) (V : Type v) where
  key : K
  id : Nat
  data : V
deriving DecidableEq

/-- State of a `tHashTable`: cached `entry_count`, current `table_size`,
the shared `entry_list` in list order, and the `cell_array` whose slot `b`
is `none` (NULL) or the position of bucket `b`'s first entry. -/
structure tHashTable (K : Type u) (V : Type v) where
  entry_count : Nat
  table_size : Nat
  entry_list : List (tHashEntry K V)
  cell_array : List (Option Nat)
deriving DecidableEq

/-- `HASH_TABLE_SIZE_DEFAULT` from tHashTable.h. -/
def HASH_TABLE_SIZE_DEFAULT : Nat := 23

/-- `HASH_TABLE_SIZE_MEDIUM` from tHashTable.h. -/
def HASH_TABLE_SIZE_MEDIUM : Nat := 331

/-- `HASH_TABLE_SIZE_LARGE` from tHashTable.h. -/
def HASH_TABLE_SIZE_LARGE : Nat := 2311

/-- The constructor `tHashTable(int in_table_size)`: zero entries, all
cells NULL. -/
def tHashTable.init (K : Type u) (V : Type v) (in_table_size : Nat) :
    tHashTable K V :=
  { entry_count := 0
    table_size := in_table_size
    entry_list := []
    cell_array := List.replicate in_table_size none }

/-- `HashKey(const int&)`: `abs(key % table_size)`, with C++ truncated
integer remainder. -/
def hashKeyInt (table_size : Nat) (key : Int) : Nat :=
  (Int.tmod key table_size).natAbs

/-- `HashKey(const cString&)`: sum of the character codes accumulated in a
32-bit unsigned, then taken mod the table size (a `cString` is modelled
as its character sequence). -/
def hashKeyString (table_size : Nat) (key : List Char) : Nat :=
  (((key.map Char.toNat).sum) % 2 ^ 32) % table_size

/-- Read cell `bin` of the array (`cell_array[bin]`); out-of-range reads
collapse to NULL. -/
def tHashTable.cell {K : Type u} {V : Type v} (t : tHashTable K V)
    (bin : Nat) : Option Nat :=
  (t.cell_array[bin]?).join

/-- How a cell's stored node position moves when a new node is linked in
at position `i`: positions at or after `i` slide up by one. -/
def cellShiftIns (i : Nat) (c : Option Nat) : Option Nat :=
  c.map fun p => if i ≤ p then p + 1 else p

/-- How a cell's stored node position moves when the node at position `q`
is unlinked: positions after `q` slide down by one. -/
def cellShiftDel (q : Nat) (c : Option Nat) : Option Nat :=
  c.map fun p => if q < p then p - 1 else p

/-- The shared placement step of `Add` and `SetTableSize` (lines 249-257
and 343-348): if cell `bin` is NULL, append the entry at the tail of the
list and point the cell at it; otherwise splice the entry in immediately
before the bucket's current head and point the cell at the new entry. -/
def placeEntry {K : Type u} {V : Type v} (bin : Nat) (e : tHashEntry K V)
    (entries : List (tHashEntry K V)) (cells : List (Option Nat)) :
    List (tHashEntry K V) × List (Option Nat) :=
  match (cells[bin]?).join with
  | none => (entries ++ [e], cells.set bin (some entries.length))
  | some i =>
      (entries.insertIdx i e, (cells.map (cellShiftIns i)).set bin (some i))

/-- `Add(key, data)`: build a fresh entry whose cached id is the key's
hash, place it by `placeEntry`, and increment `entry_count`. -/
def tHashTable.Add {K : Type u} {V : Type v} (hk : Nat → K → Nat)
    (t : tHashTable K V) (key : K) (data : V) : tHashTable K V :=
  let bin := hk t.table_size key
  let new_entry : tHashEntry K V := ⟨key, bin, data⟩
  let p := placeEntry bin new_entry t.entry_list t.cell_array
  { t with entry_list := p.1, cell_array := p.2,
           entry_count := t.entry_count + 1 }

/-- The scan loop of `FindEntry`: starting at absolute position `s`, walk
the list while the current entry's id still equals `bin`; return the
position and entry of the first key match, `none` when the run ends. -/
def findRun {K : Type u} {V : Type v} [DecidableEq K] (k : K) (bin : Nat) :
    List (tHashEntry K V) → Nat → Option (Nat × tHashEntry K V)
  | [], _ => none
  | e :: rest, i =>
      if e.id = bin then
        if e.key = k then some (i, e) else findRun k bin rest (i + 1)
      else none

/-- `FindEntry(key)`: hash to a bin; NULL cell means a miss, otherwise
scan the bucket's run from the cell's position. -/
def tHashTable.FindEntry {K : Type u} {V : Type v} [DecidableEq K]
    (hk : Nat → K → Nat) (t : tHashTable K V) (key : K) :
    Option (Nat × tHashEntry K V) :=
  let bin := hk t.table_size key
  match t.cell bin with
  | none => none
  | some i => findRun key bin (t.entry_list.drop i) i

/-- `Find(key, out_data)`: the found entry's data, `none` on a miss. -/
def tHashTable.Find {K : Type u} {V : Type v} [DecidableEq K]
    (hk : Nat → K → Nat) (t : tHashTable K V) (key : K) : Option V :=
  (t.FindEntry hk key).map fun p => p.2.data

/-- `HasEntry(key)`: whether `FindEntry` succeeds. -/
def tHashTable.HasEntry {K : Type u} {V : Type v} [DecidableEq K]
    (hk : Nat → K → Nat) (t : tHashTable K V) (key : K) : Bool :=
  (t.FindEntry hk key).isSome

/-- Overwrite the data field of the entry at one position of the list,
leaving its key and cached id alone (`cur_entry->data = data`). -/
def setDataAt {K : Type u} {V : Type v} (v : V) :
    List (tHashEntry K V) → Nat → List (tHashEntry K V)
  | [], _ => []
  | e :: rest, 0 => ⟨e.key, e.id, v⟩ :: rest
  | e :: rest, i + 1 => e :: setDataAt v rest i

/-- `SetValue(key, data)`: mutate the found entry's data in place, or
delegate to `Add` when the key is absent. -/
def tHashTable.SetValue {K : Type u} {V : Type v} [DecidableEq K]
    (hk : Nat → K → Nat) (t : tHashTable K V) (key : K) (data : V) :
    tHashTable K V :=
  match t.FindEntry hk key with
  | none => t.Add hk key data
  | some p => { t with entry_list := setDataAt data t.entry_list p.1 }

/-- `Remove(key)`: `none` models the fatal `assert(cell_array[bin] != NULL)`
(and the undefined dereference of a dangling cell, unreachable from valid
states).  Otherwise: if the bucket head's key matches, unlink it and
re-point the cell at the next entry only if that entry is still in the
bin; else scan forward within the run, unlinking on a match; a run
exhausted without a match returns a default-constructed value and leaves
the table untouched. -/
def tHashTable.Remove {K : Type u} {V : Type v} [DecidableEq K]
    [Inhabited V] (hk : Nat → K → Nat) (t : tHashTable K V) (key : K) :
    Option (V × tHashTable K V) :=
  let bin := hk t.table_size key
  match t.cell bin with
  | none => none
  | some i =>
      match t.entry_list[i]? with
      | none => none
      | some e =>
          if e.key = key then
            let entries := t.entry_list.eraseIdx i
            let newCell : Option Nat :=
              match entries[i]? with
              | some e2 => if e2.id = bin then some i else none
              | none => none
            some (e.data,
              { t with entry_list := entries,
                       cell_array :=
                         (t.cell_array.map (cellShiftDel i)).set bin newCell,
                       entry_count := t.entry_count - 1 })
          else
            match findRun key bin (t.entry_list.drop (i + 1)) (i + 1) with
            | some q =>
                some (q.2.data,
                  { t with entry_list := t.entry_list.eraseIdx q.1,
                           cell_array := t.cell_array.map (cellShiftDel q.1),
                           entry_count := t.entry_count - 1 })
            | none => some (default, t)

/-- One iteration of the `SetTableSize` re-insertion loop: pop the next
backed-up entry, recompute its bin under the (already installed) new
size, and place it by the same rule as `Add`. -/
def reinsertStep {K : Type u} {V : Type v} (hk : Nat → K → Nat)
    (acc : tHashTable K V) (cur : tHashEntry K V) : tHashTable K V :=
  let bin := hk acc.table_size cur.key
  let p := placeEntry bin ⟨cur.key, bin, cur.data⟩
             acc.entry_list acc.cell_array
  { acc with entry_list := p.1, cell_array := p.2 }

/-- `SetTableSize(_hash)`: install the new size with an all-NULL cell
array, withdraw every entry into a backup list, and re-insert each one in
list order with its id recomputed under the new size, by the same
placement rule as `Add`; `entry_count` is untouched. -/
def tHashTable.SetTableSize {K : Type u} {V : Type v} (hk : Nat → K → Nat)
    (t : tHashTable K V) (new_size : Nat) : tHashTable K V :=
  let t0 : tHashTable K V :=
    { t with table_size := new_size
             cell_array := List.replicate new_size none
             entry_list := [] }
  t.entry_list.foldl (reinsertStep hk) t0

/-- One step of the `AsLists` output loop: advance through the growing key
list while `cur_key` compares greater, then insert key and value at that
position of their respective lists. -/
def asListsStep {K : Type u} {V : Type v} [LinearOrder K]
    (acc : List K × List V) (cur : tHashEntry K V) : List K × List V :=
  let m := (acc.1.takeWhile fun k0 => k0 < cur.key).length
  (acc.1.insertIdx m cur.key, acc.2.insertIdx m cur.data)

/-- `AsLists(key_list, value_list)`: walk the entry list in order and
insertion-sort each key (with its value at the matching position) into the
output lists. -/
def tHashTable.AsLists {K : Type u} {V : Type v} [LinearOrder K]
    (t : tHashTable K V) : List K × List V :=
  t.entry_list.foldl asListsStep ([], [])

/-! ### Index bookkeeping lemmas -/

/-- Reading before an insertion point is unchanged. -/
theorem getElem?_insertIdx_lt {α : Type u} {l : List α} {i j : Nat} {x : α}
    (hij : j < i) : (l.insertIdx i x)[j]? = l[j]? := by
  by_cases hi : i ≤ l.length
  · have hj : j < l.length := by omega
    rw [List.getElem?_eq_getElem hj, List.getElem?_eq_getElem
      (show j < (l.insertIdx i x).length by
        rw [List.length_insertIdx i l hi]; omega)]
    exact congrArg some (List.getElem_insertIdx_of_lt l x i j hij hj _)
  · rw [List.insertIdx_of_length_lt l x i (by omega)]

/-- Reading the insertion point yields the inserted element. -/
theorem getElem?_insertIdx_self {α : Type u} {l : List α} {i : Nat} {x : α}
    (hi : i ≤ l.length) : (l.insertIdx i x)[i]? = some x := by
  rw [List.getElem?_eq_getElem (show i < (l.insertIdx i x).length by
    rw [List.length_insertIdx i l hi]; omega)]
  exact congrArg some (List.getElem_insertIdx_self l x i hi _)

/-- Reading past an insertion point sees the element one slot earlier. -/
theorem getElem?_insertIdx_gt {α : Type u} {l : List α} {i j : Nat} {x : α}
    (hi : i ≤ l.length) (hij : i < j) :
    (l.insertIdx i x)[j]? = l[j - 1]? := by
  by_cases hj : j - 1 < l.length
  · obtain ⟨k, rfl⟩ : ∃ k, j = i + k + 1 := ⟨j - i - 1, by omega⟩
    have h1 : i + k < l.length := by omega
    rw [List.getElem?_eq_getElem (show i + k + 1 < (l.insertIdx i x).length by
          rw [List.length_insertIdx i l hi]; omega),
        List.getElem_insertIdx_add_succ l x i k h1]
    have h2 : i + k + 1 - 1 = i + k := by omega
    rw [h2, List.getElem?_eq_getElem h1]
  · rw [List.getElem?_eq_none (show l.length ≤ j - 1 by omega),
        List.getElem?_eq_none (show (l.insertIdx i x).length ≤ j by
          rw [List.length_insertIdx i l hi]; omega)]

/-- Reading an appended singleton. -/
theorem getElem?_append_single {α : Type u} {l : List α} {x : α} {j : Nat} :
    (l ++ [x])[j]? =
      if j < l.length then l[j]?
      else if j = l.length then some x else none := by
  rw [List.getElem?_append]
  by_cases h : j < l.length
  · simp [h]
  · by_cases h2 : j = l.length
    · subst h2
      simp
    · have : 0 < j - l.length := by omega
      simp only [if_neg h, if_neg h2]
      match hd : j - l.length, this with
      | n + 1, _ => simp

/-- The bucket-id column of an entry list. -/
def bucketIds {K : Type u} {V : Type v} (l : List (tHashEntry K V)) :
    List Nat :=
  l.map (·.id)

theorem bucketIds_length {K : Type u} {V : Type v}
    {l : List (tHashEntry K V)} : (bucketIds l).length = l.length :=
  List.length_map l _

theorem bucketIds_getElem? {K : Type u} {V : Type v}
    {l : List (tHashEntry K V)} {j : Nat} :
    (bucketIds l)[j]? = (l[j]?).map (·.id) :=
  List.getElem?_map _ l j

theorem bucketIds_append {K : Type u} {V : Type v}
    {l l2 : List (tHashEntry K V)} :
    bucketIds (l ++ l2) = bucketIds l ++ bucketIds l2 :=
  List.map_append _ l l2

theorem bucketIds_concat {K : Type u} {V : Type v}
    {l : List (tHashEntry K V)} {e : tHashEntry K V} :
    bucketIds (l ++ [e]) = bucketIds l ++ [e.id] := by
  simp [bucketIds]

theorem bucketIds_insertIdx {K : Type u} {V : Type v} {i : Nat}
    {e : tHashEntry K V} : ∀ {l : List (tHashEntry K V)},
    bucketIds (l.insertIdx i e) = (bucketIds l).insertIdx i e.id := by
  induction i with
  | zero => intro l; rfl
  | succ n ih =>
      intro l
      cases l with
      | nil => rfl
      | cons a l =>
          simp only [List.insertIdx_succ_cons, bucketIds, List.map_cons]
          exact congrArg _ ih

theorem bucketIds_eraseIdx {K : Type u} {V : Type v} {i : Nat} :
    ∀ {l : List (tHashEntry K V)},
    bucketIds (l.eraseIdx i) = (bucketIds l).eraseIdx i := by
  induction i with
  | zero =>
      intro l
      cases l <;> rfl
  | succ n ih =>
      intro l
      cases l with
      | nil => rfl
      | cons a l =>
          simp only [List.eraseIdx_cons_succ, bucketIds, List.map_cons]
          exact congrArg _ ih

/-! ### The grouping invariant on the id column -/

/-- All positions holding one bucket id form a contiguous run: any position
between two positions holding `x` also holds `x`. -/
def GroupedIds (l : List Nat) : Prop :=
  ∀ (a b c x : Nat), a ≤ b → b ≤ c →
    l[a]? = some x → l[c]? = some x → l[b]? = some x

/-- Appending an id that does not yet occur keeps the list grouped. -/
theorem GroupedIds.append_fresh {l : List Nat} {x : Nat}
    (hg : GroupedIds l) (hx : ∀ m : Nat, l[m]? ≠ some x) :
    GroupedIds (l ++ [x]) := by
  intro a b c y hab hbc ha hc
  rw [getElem?_append_single] at ha hc ⊢
  by_cases hcl : c < l.length
  · have hal : a < l.length := by omega
    have hbl : b < l.length := by omega
    rw [if_pos hal] at ha
    rw [if_pos hcl] at hc
    rw [if_pos hbl]
    exact hg a b c y hab hbc ha hc
  · by_cases hce : c = l.length
    · rw [if_neg (by omega), if_pos hce] at hc
      by_cases hbe : b = l.length
      · rw [if_neg (by omega), if_pos hbe]
        exact hc
      · have hal : a < l.length := by omega
        rw [if_pos hal] at ha
        obtain rfl : x = y := by injection hc
        exact absurd ha (hx a)
    · rw [if_neg (by omega), if_neg (by omega)] at hc
      exact absurd hc (by simp)

/-- Inserting id `x` directly at the first existing position of `x` keeps
the list grouped. -/
theorem GroupedIds.insertIdx_head {l : List Nat} {i : Nat} {x : Nat}
    (hg : GroupedIds l) (hx : l[i]? = some x)
    (hfirst : ∀ m : Nat, m < i → l[m]? ≠ some x) :
    GroupedIds (l.insertIdx i x) := by
  have hi : i < l.length := (List.getElem?_eq_some.mp hx).1
  have hile : i ≤ l.length := le_of_lt hi
  intro a b c y hab hbc ha hc
  rcases lt_trichotomy b i with hb | hb | hb
  · -- b strictly before the insertion point
    have ha' : l[a]? = some y := by
      rwa [getElem?_insertIdx_lt (by omega)] at ha
    rw [getElem?_insertIdx_lt (by omega)]
    rcases lt_trichotomy c i with hcc | hcc | hcc
    · rw [getElem?_insertIdx_lt (by omega)] at hc
      exact hg a b c y hab hbc ha' hc
    · rw [hcc, getElem?_insertIdx_self hile] at hc
      obtain rfl : x = y := by injection hc
      exact absurd ha' (hfirst a (by omega))
    · rw [getElem?_insertIdx_gt hile (by omega)] at hc
      exact hg a b (c - 1) y hab (by omega) ha' hc
  · -- b is the insertion point: show y = x
    subst hb
    rw [getElem?_insertIdx_self hile]
    rcases lt_trichotomy a b with haa | haa | haa
    · have ha' : l[a]? = some y := by
        rwa [getElem?_insertIdx_lt (by omega)] at ha
      rcases lt_trichotomy c b with hcc | hcc | hcc
      · omega
      · rw [hcc, getElem?_insertIdx_self hile] at hc
        exact hc.symm ▸ rfl
      · rw [getElem?_insertIdx_gt hile (by omega)] at hc
        have : l[b]? = some y := hg a b (c - 1) y (by omega) (by omega) ha' hc
        rw [hx] at this
        exact this
    · rw [haa, getElem?_insertIdx_self hile] at ha
      exact ha
    · omega
  · -- b strictly after the insertion point
    rw [getElem?_insertIdx_gt hile (by omega)]
    have hc' : l[c - 1]? = some y := by
      rwa [getElem?_insertIdx_gt hile (by omega)] at hc
    rcases lt_trichotomy a i with haa | haa | haa
    · have ha' : l[a]? = some y := by
        rwa [getElem?_insertIdx_lt (by omega)] at ha
      exact hg a (b - 1) (c - 1) y (by omega) (by omega) ha' hc'
    · rw [haa, getElem?_insertIdx_self hile] at ha
      obtain rfl : x = y := by injection ha
      exact hg i (b - 1) (c - 1) x (by omega) (by omega) hx hc'
    · rw [getElem?_insertIdx_gt hile (by omega)] at ha
      exact hg (a - 1) (b - 1) (c - 1) y (by omega) (by omega) ha hc'

/-- Erasing any position keeps the list grouped. -/
theorem GroupedIds.eraseIdx {l : List Nat} {r : Nat} (hg : GroupedIds l) :
    GroupedIds (l.eraseIdx r) := by
  intro a b c y hab hbc ha hc
  by_cases hal : a < r
  · by_cases hbl : b < r
    · rw [List.getElem?_eraseIdx_of_lt l r a hal] at ha
      rw [List.getElem?_eraseIdx_of_lt l r b hbl]
      by_cases hcl : c < r
      · rw [List.getElem?_eraseIdx_of_lt l r c hcl] at hc
        exact hg a b c y hab hbc ha hc
      · rw [List.getElem?_eraseIdx_of_ge l r c (by omega)] at hc
        exact hg a b (c + 1) y hab (by omega) ha hc
    · rw [List.getElem?_eraseIdx_of_lt l r a hal] at ha
      rw [List.getElem?_eraseIdx_of_ge l r b (by omega)]
      rw [List.getElem?_eraseIdx_of_ge l r c (by omega)] at hc
      exact hg a (b + 1) (c + 1) y (by omega) (by omega) ha hc
  · rw [List.getElem?_eraseIdx_of_ge l r a (by omega)] at ha
    rw [List.getElem?_eraseIdx_of_ge l r b (by omega)]
    rw [List.getElem?_eraseIdx_of_ge l r c (by omega)] at hc
    exact hg (a + 1) (b + 1) (c + 1) y (by omega) (by omega) ha hc

/-! ### Cell validity and the table invariant -/

/-- What a cell must say about the id column: a NULL cell's bucket id
occurs nowhere; a non-NULL cell holds the position of the *first* entry of
its bucket. -/
def cellValid (ids : List Nat) (bin : Nat) : Option Nat → Prop
  | none => ∀ m : Nat, ids[m]? ≠ some bin
  | some i => ids[i]? = some bin ∧ ∀ m : Nat, m < i → ids[m]? ≠ some bin

/-- The inductive invariant on the list/cell pair of a table of size `ts`
hashed by `hk`. -/
structure InvList {K : Type u} {V : Type v} (hk : Nat → K → Nat) (ts : Nat)
    (entries : List (tHashEntry K V)) (cells : List (Option Nat)) :
    Prop where
  size_pos : 0 < ts
  cells_len : cells.length = ts
  id_hash : ∀ e ∈ entries, e.id = hk ts e.key
  id_lt : ∀ e ∈ entries, e.id < ts
  grouped : GroupedIds (bucketIds entries)
  cells_ok : ∀ (bin : Nat) (c : Option Nat),
    cells[bin]? = some c → cellValid (bucketIds entries) bin c

/-- The full table invariant: the cached `entry_count` agrees with the
entry list, and the list/cell pair is coherent. -/
def tHashTable.Inv {K : Type u} {V : Type v} (hk : Nat → K → Nat)
    (t : tHashTable K V) : Prop :=
  t.entry_count = t.entry_list.length ∧
    InvList hk t.table_size t.entry_list t.cell_array

/-- The placement step of `Add`/`SetTableSize` preserves the invariant,
grows the list by exactly one, and the new list is a permutation of the
old list with the new entry added. -/
theorem placeEntry_invList {K : Type u} {V : Type v} {hk : Nat → K → Nat}
    {ts : Nat} {entries : List (tHashEntry K V)}
    {cells : List (Option Nat)} (h : InvList hk ts entries cells)
    (e : tHashEntry K V) (hid : e.id = hk ts e.key) (hlt : e.id < ts) :
    InvList hk ts (placeEntry e.id e entries cells).1
        (placeEntry e.id e entries cells).2 ∧
      (placeEntry e.id e entries cells).1.length = entries.length + 1 ∧
      (placeEntry e.id e entries cells).1.Perm (e :: entries) := by
  have hbinlen : e.id < cells.length := by rw [h.cells_len]; exact hlt
  rcases hjoin : (cells[e.id]?).join with _ | i
  · -- NULL cell: append at the tail
    have hcell : cells[e.id]? = some none := by
      rcases hc : cells[e.id]? with _ | c
      · rw [List.getElem?_eq_getElem hbinlen] at hc
        exact absurd hc (by simp)
      · rw [hc] at hjoin
        cases c with
        | none => rfl
        | some j => simp at hjoin
    have hfresh : ∀ m : Nat, (bucketIds entries)[m]? ≠ some e.id :=
      h.cells_ok e.id none hcell
    have hplace : placeEntry e.id e entries cells =
        (entries ++ [e], cells.set e.id (some entries.length)) := by
      unfold placeEntry
      rw [hjoin]
    rw [hplace]
    refine ⟨⟨h.size_pos, by rw [List.length_set]; exact h.cells_len,
        ?_, ?_, ?_, ?_⟩, by simp, List.perm_append_singleton e entries⟩
    · intro e' he'
      rcases List.mem_append.mp he' with he' | he'
      · exact h.id_hash e' he'
      · rw [List.mem_singleton.mp he']
        exact hid
    · intro e' he'
      rcases List.mem_append.mp he' with he' | he'
      · exact h.id_lt e' he'
      · rw [List.mem_singleton.mp he']
        exact hlt
    · rw [bucketIds_concat]
      exact h.grouped.append_fresh hfresh
    · intro bin c hc
      rw [List.getElem?_set] at hc
      by_cases hbe : e.id = bin
      · subst hbe
        rw [if_pos rfl, if_pos hbinlen] at hc
        obtain rfl : some entries.length = c := by injection hc
        refine ⟨?_, ?_⟩
        · rw [bucketIds_concat, getElem?_append_single, bucketIds_length,
            if_neg (by omega), if_pos rfl]
        · intro m hm
          rw [bucketIds_concat, getElem?_append_single,
              if_pos (by rw [bucketIds_length]; omega)]
          exact hfresh m
      · rw [if_neg hbe] at hc
        have hv := h.cells_ok bin c hc
        cases c with
        | none =>
            intro m
            rw [bucketIds_concat, getElem?_append_single]
            by_cases hm : m < (bucketIds entries).length
            · rw [if_pos hm]
              exact hv m
            · by_cases hm2 : m = (bucketIds entries).length
              · rw [if_neg hm, if_pos hm2]
                intro hcon
                exact hbe (by injection hcon)
              · rw [if_neg hm, if_neg hm2]
                simp
        | some p =>
            have hp : p < (bucketIds entries).length :=
              (List.getElem?_eq_some.mp hv.1).1
            refine ⟨?_, ?_⟩
            · rw [bucketIds_concat, getElem?_append_single, if_pos hp]
              exact hv.1
            · intro m hm
              rw [bucketIds_concat, getElem?_append_single,
                  if_pos (by omega)]
              exact hv.2 m hm
  · -- occupied cell: splice in front of the bucket head
    have hcell : cells[e.id]? = some (some i) := by
      rcases hc : cells[e.id]? with _ | c
      · rw [hc] at hjoin
        simp at hjoin
      · rw [hc] at hjoin
        cases c with
        | none => simp at hjoin
        | some j =>
            have hji : some j = some i := hjoin
            obtain rfl : j = i := by injection hji
            rfl
    have hv := h.cells_ok e.id (some i) hcell
    have hi : i < (bucketIds entries).length :=
      (List.getElem?_eq_some.mp hv.1).1
    have hie : i ≤ entries.length := by
      rw [bucketIds_length] at hi
      omega
    have hplace : placeEntry e.id e entries cells =
        (entries.insertIdx i e,
          (cells.map (cellShiftIns i)).set e.id (some i)) := by
      unfold placeEntry
      rw [hjoin]
    rw [hplace]
    have hids : bucketIds (entries.insertIdx i e) =
        (bucketIds entries).insertIdx i e.id := bucketIds_insertIdx
    have hile : i ≤ (bucketIds entries).length := le_of_lt hi
    refine ⟨⟨h.size_pos,
        by rw [List.length_set, List.length_map]; exact h.cells_len,
        ?_, ?_, ?_, ?_⟩,
        List.length_insertIdx i entries hie,
        List.perm_insertIdx e entries hie⟩
    · intro e' he'
      rcases (List.mem_insertIdx hie).mp he' with he' | he'
      · rw [he']
        exact hid
      · exact h.id_hash e' he'
    · intro e' he'
      rcases (List.mem_insertIdx hie).mp he' with he' | he'
      · rw [he']
        exact hlt
      · exact h.id_lt e' he'
    · rw [hids]
      exact h.grouped.insertIdx_head hv.1 hv.2
    · intro bin c hc
      rw [List.getElem?_set] at hc
      by_cases hbe : e.id = bin
      · subst hbe
        rw [if_pos rfl, if_pos (by rw [List.length_map]; exact hbinlen)]
          at hc
        obtain rfl : some i = c := by injection hc
        refine ⟨?_, ?_⟩
        · rw [hids]
          exact getElem?_insertIdx_self hile
        · intro m hm
          rw [hids, getElem?_insertIdx_lt hm]
          exact hv.2 m hm
      · rw [if_neg hbe, List.getElem?_map] at hc
        rcases hc0 : cells[bin]? with _ | c0
        · rw [hc0] at hc
          simp at hc
        · rw [hc0] at hc
          have hc2 : some (cellShiftIns i c0) = some c := hc
          obtain rfl : cellShiftIns i c0 = c := by injection hc2
          have hv' := h.cells_ok bin c0 hc0
          cases c0 with
          | none =>
              intro m
              rw [hids]
              rcases lt_trichotomy m i with hm | hm | hm
              · rw [getElem?_insertIdx_lt hm]
                exact hv' m
              · rw [hm, getElem?_insertIdx_self hile]
                intro hcon
                exact hbe (by injection hcon)
              · rw [getElem?_insertIdx_gt hile hm]
                exact hv' (m - 1)
          | some p =>
              have hpne : p ≠ i := by
                intro hpe
                rw [hpe] at hv'
                have h1 : (bucketIds entries)[i]? = some bin := hv'.1
                rw [hv.1] at h1
                exact hbe (by injection h1)
              rcases lt_or_gt_of_ne hpne with hp | hp
              · have hps : cellShiftIns i (some p) = some p := by
                  have h0 : cellShiftIns i (some p) =
                      some (if i ≤ p then p + 1 else p) := rfl
                  rw [h0, if_neg (by omega)]
                rw [hps]
                refine ⟨?_, ?_⟩
                · rw [hids, getElem?_insertIdx_lt hp]
                  exact hv'.1
                · intro m hm
                  rw [hids, getElem?_insertIdx_lt (by omega)]
                  exact hv'.2 m hm
              · have hps : cellShiftIns i (some p) = some (p + 1) := by
                  have h0 : cellShiftIns i (some p) =
                      some (if i ≤ p then p + 1 else p) := rfl
                  rw [h0, if_pos (by omega)]
                rw [hps]
                refine ⟨?_, ?_⟩
                · rw [hids, getElem?_insertIdx_gt hile (by omega),
                    Nat.add_sub_cancel]
                  exact hv'.1
                · intro m hm
                  rw [hids]
                  rcases lt_trichotomy m i with hmi | hmi | hmi
                  · rw [getElem?_insertIdx_lt hmi]
                    exact hv'.2 m (by omega)
                  · rw [hmi, getElem?_insertIdx_self hile]
                    intro hcon
                    exact hbe (by injection hcon)
                  · rw [getElem?_insertIdx_gt hile hmi]
                    exact hv'.2 (m - 1) (by omega)

/-! ### Facts about the scan loop and the mutation helpers -/

/-- What a successful scan returns: a position at or after the start,
holding an entry with the sought key, inside the sought bucket. -/
theorem findRun_sound {K : Type u} {V : Type v} [DecidableEq K] {k : K}
    {bin : Nat} : ∀ {l : List (tHashEntry K V)} {s q : Nat}
    {e : tHashEntry K V}, findRun k bin l s = some (q, e) →
    s ≤ q ∧ l[q - s]? = some e ∧ e.key = k ∧ e.id = bin := by
  intro l
  induction l with
  | nil => intro s q e h; exact absurd h (by simp [findRun])
  | cons a rest ih =>
      intro s q e h
      unfold findRun at h
      by_cases ha : a.id = bin
      · rw [if_pos ha] at h
        by_cases hkey : a.key = k
        · rw [if_pos hkey] at h
          obtain ⟨rfl, rfl⟩ : s = q ∧ a = e := by
            have h1 : (s, a) = (q, e) := by injection h
            exact ⟨congrArg Prod.fst h1, congrArg Prod.snd h1⟩
          exact ⟨le_refl s, by simp, hkey, ha⟩
        · rw [if_neg hkey] at h
          obtain ⟨h1, h2, h3, h4⟩ := ih h
          refine ⟨by omega, ?_, h3, h4⟩
          obtain ⟨d, hd⟩ : ∃ d, q - s = d + 1 := ⟨q - s - 1, by omega⟩
          rw [hd, List.getElem?_cons_succ]
          have : q - (s + 1) = d := by omega
          rw [this] at h2
          exact h2
      · rw [if_neg ha] at h
        exact absurd h (by simp)

/-- Setting the data field does not move, add or drop entries and keeps
every id. -/
theorem setDataAt_length {K : Type u} {V : Type v} {v : V} :
    ∀ (l : List (tHashEntry K V)) (i : Nat),
    (setDataAt v l i).length = l.length := by
  intro l
  induction l with
  | nil => intro i; rfl
  | cons a rest ih =>
      intro i
      cases i with
      | zero => rfl
      | succ n => exact congrArg Nat.succ (ih n)

theorem bucketIds_setDataAt {K : Type u} {V : Type v} {v : V} :
    ∀ (l : List (tHashEntry K V)) (i : Nat),
    bucketIds (setDataAt v l i) = bucketIds l := by
  intro l
  induction l with
  | nil => intro i; rfl
  | cons a rest ih =>
      intro i
      cases i with
      | zero => rfl
      | succ n =>
          show a.id :: bucketIds (setDataAt v rest n) = _
          rw [ih n]
          rfl

theorem setDataAt_mem {K : Type u} {V : Type v} {v : V} :
    ∀ (l : List (tHashEntry K V)) (i : Nat)
    (e' : tHashEntry K V), e' ∈ setDataAt v l i →
    ∃ e ∈ l, e'.key = e.key ∧ e'.id = e.id := by
  intro l
  induction l with
  | nil => intro i e' h; exact absurd h (by simp [setDataAt])
  | cons a rest ih =>
      intro i e' h
      cases i with
      | zero =>
          rcases List.mem_cons.mp h with h | h
          · exact ⟨a, List.mem_cons_self a rest, by rw [h], by rw [h]⟩
          · exact ⟨e', List.mem_cons_of_mem a h, rfl, rfl⟩
      | succ n =>
          rcases List.mem_cons.mp h with h | h
          · exact ⟨a, List.mem_cons_self a rest, by rw [h], by rw [h]⟩
          · obtain ⟨e, he, h1, h2⟩ := ih n e' h
            exact ⟨e, List.mem_cons_of_mem a he, h1, h2⟩

/-- A cell that does not point at the erased position stays valid once its
stored position is slid past the erasure. -/
theorem cellValid_shiftDel {ids : List Nat} {q bin : Nat} {c : Option Nat}
    (hv : cellValid ids bin c) (hne : ids[q]? ≠ some bin) :
    cellValid (ids.eraseIdx q) bin (cellShiftDel q c) := by
  cases c with
  | none =>
      intro m
      by_cases hm : m < q
      · rw [List.getElem?_eraseIdx_of_lt ids q m hm]
        exact hv m
      · rw [List.getElem?_eraseIdx_of_ge ids q m (by omega)]
        exact hv (m + 1)
  | some p =>
      have hp : ids[p]? = some bin := hv.1
      have hpq : p ≠ q := fun h => hne (h ▸ hp)
      rcases lt_or_gt_of_ne hpq with h | h
      · have h0 : cellShiftDel q (some p) = some p := by
          have h1 : cellShiftDel q (some p) =
              some (if q < p then p - 1 else p) := rfl
          rw [h1, if_neg (by omega)]
        rw [h0]
        refine ⟨?_, ?_⟩
        · rw [List.getElem?_eraseIdx_of_lt ids q p h]
          exact hp
        · intro m hm
          rw [List.getElem?_eraseIdx_of_lt ids q m (by omega)]
          exact hv.2 m hm
      · have h0 : cellShiftDel q (some p) = some (p - 1) := by
          have h1 : cellShiftDel q (some p) =
              some (if q < p then p - 1 else p) := rfl
          rw [h1, if_pos (by omega)]
        rw [h0]
        refine ⟨?_, ?_⟩
        · rw [List.getElem?_eraseIdx_of_ge ids q (p - 1) (by omega)]
          have h2 : p - 1 + 1 = p := by omega
          rw [h2]
          exact hp
        · intro m hm
          by_cases hmq : m < q
          · rw [List.getElem?_eraseIdx_of_lt ids q m hmq]
            exact hv.2 m (by omega)
          · rw [List.getElem?_eraseIdx_of_ge ids q m (by omega)]
            exact hv.2 (m + 1) (by omega)

/-- A non-NULL reading of a joined cell comes from a stored position. -/
theorem cell_join_some {cells : List (Option Nat)} {bin i : Nat}
    (h : (cells[bin]?).join = some i) : cells[bin]? = some (some i) := by
  rcases hc : cells[bin]? with _ | c
  · rw [hc] at h
    exact Option.noConfusion h
  · rw [hc] at h
    cases c with
    | none => exact Option.noConfusion h
    | some j =>
        have hji : some j = some i := h
        obtain rfl : j = i := by injection hji
        rfl

/-- A NULL reading of an in-range joined cell means the slot stores NULL. -/
theorem cell_join_none {cells : List (Option Nat)} {bin : Nat}
    (hlen : bin < cells.length) (h : (cells[bin]?).join = none) :
    cells[bin]? = some none := by
  rcases hc : cells[bin]? with _ | c
  · rw [List.getElem?_eq_getElem hlen] at hc
    exact absurd hc (by simp)
  · rw [hc] at h
    cases c with
    | none => rfl
    | some j =>
        have : some j = (none : Option Nat) := h
        exact Option.noConfusion this

/-! ### Invariant preservation, operation by operation -/

/-- `Add` preserves the invariant, keeps the table size, and its new entry
list is the old one plus the new entry. -/
theorem tHashTable.Add_inv {K : Type u} {V : Type v} {hk : Nat → K → Nat}
    {t : tHashTable K V} (h : t.Inv hk) (key : K) (data : V)
    (hr : hk t.table_size key < t.table_size) :
    (t.Add hk key data).Inv hk ∧
      (t.Add hk key data).entry_list.Perm
        (⟨key, hk t.table_size key, data⟩ :: t.entry_list) ∧
      (t.Add hk key data).table_size = t.table_size := by
  obtain ⟨hcnt, hl⟩ := h
  obtain ⟨hl', hlen, hperm⟩ :=
    placeEntry_invList hl ⟨key, hk t.table_size key, data⟩ rfl hr
  have hid : (⟨key, hk t.table_size key, data⟩ : tHashEntry K V).id
      = hk t.table_size key := rfl
  rw [hid] at hl' hlen hperm
  refine ⟨⟨?_, ?_⟩, ?_, rfl⟩
  · show t.entry_count + 1 =
      (placeEntry (hk t.table_size key) ⟨key, hk t.table_size key, data⟩
        t.entry_list t.cell_array).1.length
    rw [hlen, hcnt]
  · exact hl'
  · exact hperm

/-- `SetValue` preserves the invariant and keeps the table size. -/
theorem tHashTable.SetValue_inv {K : Type u} {V : Type v} [DecidableEq K]
    {hk : Nat → K → Nat} {t : tHashTable K V} (h : t.Inv hk) (key : K)
    (data : V) (hr : hk t.table_size key < t.table_size) :
    (t.SetValue hk key data).Inv hk ∧
      (t.SetValue hk key data).table_size = t.table_size := by
  unfold tHashTable.SetValue
  rcases hf : t.FindEntry hk key with _ | p
  · exact ⟨(tHashTable.Add_inv h key data hr).1,
      (tHashTable.Add_inv h key data hr).2.2⟩
  · obtain ⟨hcnt, hl⟩ := h
    refine ⟨⟨?_, hl.size_pos, hl.cells_len, ?_, ?_, ?_, ?_⟩, rfl⟩
    · show t.entry_count = (setDataAt data t.entry_list p.1).length
      rw [setDataAt_length]
      exact hcnt
    · intro e' he'
      obtain ⟨e, he, h1, h2⟩ := setDataAt_mem _ _ _ he'
      rw [h1, h2]
      exact hl.id_hash e he
    · intro e' he'
      obtain ⟨e, he, _, h2⟩ := setDataAt_mem _ _ _ he'
      rw [h2]
      exact hl.id_lt e he
    · show GroupedIds (bucketIds (setDataAt data t.entry_list p.1))
      rw [bucketIds_setDataAt]
      exact hl.grouped
    · intro bin c hcc
      show cellValid (bucketIds (setDataAt data t.entry_list p.1)) bin c
      rw [bucketIds_setDataAt]
      exact hl.cells_ok bin c hcc

/-- A successful `Remove` preserves the invariant and keeps the table
size (a miss inside the run returns the table unchanged). -/
theorem tHashTable.Remove_inv {K : Type u} {V : Type v} [DecidableEq K]
    [Inhabited V] {hk : Nat → K → Nat} {t : tHashTable K V}
    (h : t.Inv hk) {key : K} {v : V} {t' : tHashTable K V}
    (hrem : t.Remove hk key = some (v, t')) :
    t'.Inv hk ∧ t'.table_size = t.table_size := by
  obtain ⟨hcnt, hl⟩ := h
  unfold tHashTable.Remove at hrem
  dsimp only at hrem
  split at hrem
  · exact absurd hrem (by simp)
  · rename_i i hcell
    split at hrem
    · exact absurd hrem (by simp)
    · rename_i e hei
      have hcells : t.cell_array[hk t.table_size key]? = some (some i) :=
        cell_join_some hcell
      have hv := hl.cells_ok (hk t.table_size key) (some i) hcells
      have hidsi : (bucketIds t.entry_list)[i]? = some e.id := by
        rw [bucketIds_getElem?, hei]
        rfl
      have hlen_i : i < t.entry_list.length :=
        (List.getElem?_eq_some.mp hei).1
      have hbinlt : hk t.table_size key < t.cell_array.length :=
        (List.getElem?_eq_some.mp hcells).1
      split at hrem
      · -- the bucket head's key matches: erase position i
        rename_i hkeq
        rw [Option.some.injEq, Prod.mk.injEq] at hrem
        obtain ⟨-, ht'⟩ := hrem
        subst ht'
        refine ⟨⟨?_, ?_, ?_, ?_, ?_, ?_, ?_⟩, rfl⟩
        · show t.entry_count - 1 = (t.entry_list.eraseIdx i).length
          rw [List.length_eraseIdx, if_pos hlen_i, hcnt]
        · exact hl.size_pos
        · show ((t.cell_array.map (cellShiftDel i)).set _ _).length = _
          rw [List.length_set, List.length_map]
          exact hl.cells_len
        · intro e' he'
          exact hl.id_hash e' ((List.eraseIdx_sublist t.entry_list i).subset he')
        · intro e' he'
          exact hl.id_lt e' ((List.eraseIdx_sublist t.entry_list i).subset he')
        · show GroupedIds (bucketIds (t.entry_list.eraseIdx i))
          rw [bucketIds_eraseIdx]
          exact hl.grouped.eraseIdx
        · intro bin c hcc
          rw [List.getElem?_set] at hcc
          by_cases hbe : hk t.table_size key = bin
          · subst hbe
            rw [if_pos rfl,
                if_pos (by rw [List.length_map]; exact hbinlt)] at hcc
            obtain rfl : (match (t.entry_list.eraseIdx i)[i]? with
                | some e2 =>
                    if e2.id = hk t.table_size key then some i else none
                | none => none) = c := by injection hcc
            split
            · rename_i e2 hne2
              split
              · rename_i he2id
                refine ⟨?_, ?_⟩
                · rw [bucketIds_getElem?, hne2]
                  rw [Option.map_some', he2id]
                · intro m hm
                  rw [bucketIds_eraseIdx,
                      List.getElem?_eraseIdx_of_lt _ _ _ hm]
                  exact hv.2 m hm
              · rename_i he2id
                intro m
                rcases lt_trichotomy m i with hm | hm | hm
                · rw [bucketIds_eraseIdx,
                      List.getElem?_eraseIdx_of_lt _ _ _ hm]
                  exact hv.2 m hm
                · subst hm
                  rw [bucketIds_getElem?, hne2]
                  intro hcon
                  rw [Option.map_some'] at hcon
                  exact he2id (by injection hcon)
                · rw [bucketIds_eraseIdx,
                      List.getElem?_eraseIdx_of_ge _ _ _ (by omega)]
                  intro hcon
                  have hmid := hl.grouped i (i + 1) (m + 1) _
                    (by omega) (by omega) hv.1 hcon
                  have hlhs : (bucketIds (t.entry_list.eraseIdx i))[i]? =
                      (bucketIds t.entry_list)[i + 1]? := by
                    rw [bucketIds_eraseIdx,
                        List.getElem?_eraseIdx_of_ge _ _ _ (le_refl i)]
                  rw [hmid, bucketIds_getElem?, hne2,
                      Option.map_some'] at hlhs
                  exact he2id (by injection hlhs)
            · rename_i hne2
              intro m
              by_cases hm : m < i
              · rw [bucketIds_eraseIdx,
                    List.getElem?_eraseIdx_of_lt _ _ _ hm]
                exact hv.2 m hm
              · rw [bucketIds_eraseIdx,
                    List.getElem?_eraseIdx_of_ge _ _ _ (by omega)]
                intro hcon
                have hmid := hl.grouped i (i + 1) (m + 1) _
                  (by omega) (by omega) hv.1 hcon
                have hlhs : (bucketIds (t.entry_list.eraseIdx i))[i]? =
                    (bucketIds t.entry_list)[i + 1]? := by
                  rw [bucketIds_eraseIdx,
                      List.getElem?_eraseIdx_of_ge _ _ _ (le_refl i)]
                rw [hmid, bucketIds_getElem?, hne2] at hlhs
                exact Option.noConfusion hlhs
          · rw [if_neg hbe, List.getElem?_map] at hcc
            rcases hc0 : t.cell_array[bin]? with _ | c0
            · rw [hc0] at hcc
              exact absurd hcc (by simp)
            · rw [hc0] at hcc
              have hcc2 : some (cellShiftDel i c0) = some c := hcc
              obtain rfl : cellShiftDel i c0 = c := by injection hcc2
              show cellValid (bucketIds (t.entry_list.eraseIdx i)) bin _
              rw [bucketIds_eraseIdx]
              refine cellValid_shiftDel (hl.cells_ok bin c0 hc0) ?_
              intro hcon
              rw [hv.1] at hcon
              exact hbe (by injection hcon)
      · -- head key mismatch: scan forward in the run
        rename_i hkeq
        split at hrem
        · rename_i q hfr
          rw [Option.some.injEq, Prod.mk.injEq] at hrem
          obtain ⟨-, ht'⟩ := hrem
          subst ht'
          obtain ⟨hq1, hq2, hq3, hq4⟩ := findRun_sound hfr
          rw [List.getElem?_drop] at hq2
          have hq2' : t.entry_list[q.1]? = some q.2 := by
            have hqi : i + 1 + (q.1 - (i + 1)) = q.1 := by omega
            rw [hqi] at hq2
            exact hq2
          have hqlen : q.1 < t.entry_list.length :=
            (List.getElem?_eq_some.mp hq2').1
          have hidsq : (bucketIds t.entry_list)[q.1]? =
              some (hk t.table_size key) := by
            rw [bucketIds_getElem?, hq2', Option.map_some', hq4]
          refine ⟨⟨?_, ?_, ?_, ?_, ?_, ?_, ?_⟩, rfl⟩
          · show t.entry_count - 1 = (t.entry_list.eraseIdx q.1).length
            rw [List.length_eraseIdx, if_pos hqlen, hcnt]
          · exact hl.size_pos
          · show (t.cell_array.map (cellShiftDel q.1)).length = _
            rw [List.length_map]
            exact hl.cells_len
          · intro e' he'
            exact hl.id_hash e'
              ((List.eraseIdx_sublist t.entry_list q.1).subset he')
          · intro e' he'
            exact hl.id_lt e'
              ((List.eraseIdx_sublist t.entry_list q.1).subset he')
          · show GroupedIds (bucketIds (t.entry_list.eraseIdx q.1))
            rw [bucketIds_eraseIdx]
            exact hl.grouped.eraseIdx
          · intro bin c hcc
            rw [List.getElem?_map] at hcc
            rcases hc0 : t.cell_array[bin]? with _ | c0
            · rw [hc0] at hcc
              exact absurd hcc (by simp)
            · rw [hc0] at hcc
              have hcc2 : some (cellShiftDel q.1 c0) = some c := hcc
              obtain rfl : cellShiftDel q.1 c0 = c := by injection hcc2
              show cellValid (bucketIds (t.entry_list.eraseIdx q.1)) bin _
              by_cases hbe : bin = hk t.table_size key
              · subst hbe
                rw [hcells] at hc0
                obtain rfl : some i = c0 := by injection hc0
                have hshift : cellShiftDel q.1 (some i) = some i := by
                  have h0 : cellShiftDel q.1 (some i) =
                      some (if q.1 < i then i - 1 else i) := rfl
                  rw [h0, if_neg (by omega)]
                rw [hshift]
                refine ⟨?_, ?_⟩
                · rw [bucketIds_eraseIdx,
                      List.getElem?_eraseIdx_of_lt _ _ _ (by omega)]
                  exact hv.1
                · intro m hm
                  rw [bucketIds_eraseIdx,
                      List.getElem?_eraseIdx_of_lt _ _ _ (by omega)]
                  exact hv.2 m hm
              · rw [bucketIds_eraseIdx]
                refine cellValid_shiftDel (hl.cells_ok bin c0 hc0) ?_
                intro hcon
                rw [hidsq] at hcon
                have hcon2 : hk t.table_size key = bin := by injection hcon
                exact hbe hcon2.symm
        · rename_i hfr
          rw [Option.some.injEq, Prod.mk.injEq] at hrem
          obtain ⟨-, ht'⟩ := hrem
          subst ht'
          exact ⟨⟨hcnt, hl⟩, rfl⟩

/-- The re-insertion loop of `SetTableSize` keeps the new table size and
`entry_count`, preserves the invariant, and its final entry list is a
permutation of the backed-up entries (ids recomputed under the new size)
on top of whatever the accumulator already held. -/
theorem reinsertStep_fold {K : Type u} {V : Type v} {hk : Nat → K → Nat}
    {ns : Nat} (hr : ∀ k : K, hk ns k < ns) :
    ∀ (backup : List (tHashEntry K V)) (acc : tHashTable K V),
    acc.table_size = ns →
    InvList hk ns acc.entry_list acc.cell_array →
    (backup.foldl (reinsertStep hk) acc).table_size = ns ∧
      (backup.foldl (reinsertStep hk) acc).entry_count = acc.entry_count ∧
      InvList hk ns (backup.foldl (reinsertStep hk) acc).entry_list
        (backup.foldl (reinsertStep hk) acc).cell_array ∧
      (backup.foldl (reinsertStep hk) acc).entry_list.Perm
        ((backup.map fun e =>
            (⟨e.key, hk ns e.key, e.data⟩ : tHashEntry K V)) ++
          acc.entry_list) := by
  intro backup
  induction backup with
  | nil =>
      intro acc h1 h2
      exact ⟨h1, rfl, h2, by simp⟩
  | cons cur rest ih =>
      intro acc h1 h2
      obtain ⟨cnt, ts, el, ca⟩ := acc
      obtain rfl : ts = ns := h1
      obtain ⟨hpl, -, hperm⟩ :=
        placeEntry_invList h2 ⟨cur.key, hk ts cur.key, cur.data⟩ rfl
          (hr cur.key)
      have hid : (⟨cur.key, hk ts cur.key, cur.data⟩ : tHashEntry K V).id
          = hk ts cur.key := rfl
      rw [hid] at hpl hperm
      have hfold : (cur :: rest).foldl (reinsertStep hk) ⟨cnt, ts, el, ca⟩
          = rest.foldl (reinsertStep hk)
              (reinsertStep hk ⟨cnt, ts, el, ca⟩ cur) := rfl
      have hstep : reinsertStep hk ⟨cnt, ts, el, ca⟩ cur =
          ⟨cnt, ts,
            (placeEntry (hk ts cur.key) ⟨cur.key, hk ts cur.key, cur.data⟩
              el ca).1,
            (placeEntry (hk ts cur.key) ⟨cur.key, hk ts cur.key, cur.data⟩
              el ca).2⟩ := rfl
      rw [hfold, hstep]
      obtain ⟨ha, hb, hc2, hd⟩ := ih ⟨cnt, ts,
        (placeEntry (hk ts cur.key) ⟨cur.key, hk ts cur.key, cur.data⟩
          el ca).1,
        (placeEntry (hk ts cur.key) ⟨cur.key, hk ts cur.key, cur.data⟩
          el ca).2⟩ rfl hpl
      refine ⟨ha, hb, hc2, ?_⟩
      refine hd.trans ?_
      refine (List.Perm.append_left _ hperm).trans ?_
      have hmap : (cur :: rest).map (fun e =>
          (⟨e.key, hk ts e.key, e.data⟩ : tHashEntry K V)) =
          (⟨cur.key, hk ts cur.key, cur.data⟩ : tHashEntry K V) ::
            rest.map (fun e => ⟨e.key, hk ts e.key, e.data⟩) := rfl
      rw [hmap]
      exact List.perm_middle

/-- `SetTableSize` preserves the invariant, installs the new size, and
keeps the entries up to a permutation with recomputed ids. -/
theorem tHashTable.SetTableSize_inv {K : Type u} {V : Type v}
    {hk : Nat → K → Nat} {t : tHashTable K V} (h : t.Inv hk) (ns : Nat)
    (hns : 0 < ns) (hr : ∀ k : K, hk ns k < ns) :
    (t.SetTableSize hk ns).Inv hk ∧
      (t.SetTableSize hk ns).table_size = ns ∧
      (t.SetTableSize hk ns).entry_list.Perm
        (t.entry_list.map fun e =>
          (⟨e.key, hk ns e.key, e.data⟩ : tHashEntry K V)) := by
  obtain ⟨hcnt, hl⟩ := h
  have h0 : InvList hk ns ([] : List (tHashEntry K V))
      (List.replicate ns none) := by
    refine ⟨hns, List.length_replicate ns none, ?_, ?_, ?_, ?_⟩
    · intro e he
      exact absurd he (by simp)
    · intro e he
      exact absurd he (by simp)
    · intro a b c x _ _ ha _
      exact absurd ha (by simp [bucketIds])
    · intro bin c hc
      rw [List.getElem?_replicate] at hc
      by_cases hb : bin < ns
      · rw [if_pos hb] at hc
        obtain rfl : (none : Option Nat) = c := by injection hc
        intro m
        simp [bucketIds]
      · rw [if_neg hb] at hc
        exact absurd hc (by simp)
  obtain ⟨ha, hb, hc2, hd⟩ := reinsertStep_fold hr t.entry_list
    ⟨t.entry_count, ns, [], List.replicate ns none⟩ rfl h0
  have hset : t.SetTableSize hk ns = t.entry_list.foldl (reinsertStep hk)
      ⟨t.entry_count, ns, [], List.replicate ns none⟩ := rfl
  rw [hset]
  rw [List.append_nil] at hd
  refine ⟨⟨?_, ?_⟩, ha, hd⟩
  · rw [hb, hd.length_eq, List.length_map]
    exact hcnt
  · have hts := ha
    -- InvList is stated at size ns; rewrite through the table-size field
    rw [hts]
    exact hc2

/-! ### Operation sequences from a fresh table -/

/-- The mutating operations quantified over by the invariant claim. -/
inductive TableOp (K : Type u) (V : Type v) where
  | add (key : K) (data : V)
  | setValue (key : K) (data : V)
  | remove (key : K)
  | setTableSize (new_size : Nat)

/-- Whether an operation's requested size is legal: `SetTableSize(0)`
would make the C++ hash mod by zero. -/
def TableOp.sizeOK {K : Type u} {V : Type v} : TableOp K V → Bool
  | .setTableSize n => decide (0 < n)
  | _ => true

/-- Run one operation.  A `Remove` whose assertion fires dies before any
mutation, so the state it leaves behind is the unchanged table. -/
def tHashTable.applyOp {K : Type u} {V : Type v} [DecidableEq K]
    [Inhabited V] (hk : Nat → K → Nat) (t : tHashTable K V) :
    TableOp K V → tHashTable K V
  | .add key data => t.Add hk key data
  | .setValue key data => t.SetValue hk key data
  | .remove key =>
      match t.Remove hk key with
      | some p => p.2
      | none => t
  | .setTableSize n => t.SetTableSize hk n

/-- Run a whole sequence of operations. -/
def tHashTable.runOps {K : Type u} {V : Type v} [DecidableEq K]
    [Inhabited V] (hk : Nat → K → Nat) (t : tHashTable K V)
    (ops : List (TableOp K V)) : tHashTable K V :=
  ops.foldl (tHashTable.applyOp hk) t

/-- Every single operation preserves the invariant. -/
theorem tHashTable.applyOp_inv {K : Type u} {V : Type v} [DecidableEq K]
    [Inhabited V] {hk : Nat → K → Nat}
    (hr : ∀ (ts : Nat) (k : K), 0 < ts → hk ts k < ts)
    {t : tHashTable K V} (h : t.Inv hk) (op : TableOp K V)
    (hop : op.sizeOK = true) : (t.applyOp hk op).Inv hk := by
  cases op with
  | add key data => exact (tHashTable.Add_inv h key data
      (hr _ _ h.2.size_pos)).1
  | setValue key data => exact (tHashTable.SetValue_inv h key data
      (hr _ _ h.2.size_pos)).1
  | remove key =>
      show (match t.Remove hk key with
        | some p => p.2
        | none => t).Inv hk
      split
      · rename_i p hp
        exact (tHashTable.Remove_inv h
          (show t.Remove hk key = some (p.1, p.2) from hp)).1
      · exact h
  | setTableSize n =>
      have hn : 0 < n := by
        have := hop
        simp only [TableOp.sizeOK, decide_eq_true_eq] at this
        exact this
      exact (tHashTable.SetTableSize_inv h n hn (fun k => hr n k hn)).1

/-- A whole operation sequence preserves the invariant. -/
theorem tHashTable.runOps_inv {K : Type u} {V : Type v} [DecidableEq K]
    [Inhabited V] {hk : Nat → K → Nat}
    (hr : ∀ (ts : Nat) (k : K), 0 < ts → hk ts k < ts) :
    ∀ (ops : List (TableOp K V)) {t : tHashTable K V}, t.Inv hk →
    (∀ op ∈ ops, op.sizeOK = true) → (t.runOps hk ops).Inv hk := by
  intro ops
  induction ops with
  | nil => intro t h _; exact h
  | cons op rest ih =>
      intro t h hops
      exact ih (tHashTable.applyOp_inv hr h op
          (hops op (List.mem_cons_self op rest)))
        (fun o ho => hops o (List.mem_cons_of_mem op ho))

/-- The fresh table satisfies the invariant. -/
theorem tHashTable.init_inv {K : Type u} {V : Type v}
    (hk : Nat → K → Nat) (n : Nat) (hn : 0 < n) :
    (tHashTable.init K V n).Inv hk := by
  refine ⟨rfl, hn, List.length_replicate n none, ?_, ?_, ?_, ?_⟩
  · intro e he
    exact absurd he (by simp [tHashTable.init])
  · intro e he
    exact absurd he (by simp [tHashTable.init])
  · intro a b c x _ _ ha _
    exact absurd ha (by simp [tHashTable.init, bucketIds])
  · intro bin c hc
    show cellValid (bucketIds ([] : List (tHashEntry K V))) bin c
    have hca : (tHashTable.init K V n).cell_array =
        List.replicate n none := rfl
    rw [hca, List.getElem?_replicate] at hc
    by_cases hb : bin < n
    · rw [if_pos hb] at hc
      obtain rfl : (none : Option Nat) = c := by injection hc
      intro m
      simp [bucketIds]
    · rw [if_neg hb] at hc
      exact absurd hc (by simp)

/-! ### Claim C1 -/

/-- C1: for every sequence of Add, SetValue, Remove and SetTableSize
operations run from a fresh table (under any in-range hash family, with
positive resize targets), the resulting state satisfies: `entry_count`
equals the number of entries in the entry list; every non-empty cell
points at an entry whose cached bucket id equals that slot's index; all
entries sharing a cached bucket id form one contiguous run; and every
entry's cached bucket id equals the hash of its key under the current
table size. -/
theorem claim_C1 {K : Type u} {V : Type v} [DecidableEq K] [Inhabited V]
    (hk : Nat → K → Nat)
    (hr : ∀ (ts : Nat) (k : K), 0 < ts → hk ts k < ts)
    (n : Nat) (hn : 0 < n) (ops : List (TableOp K V))
    (hops : ∀ op ∈ ops, op.sizeOK = true) :
    ((tHashTable.init K V n).runOps hk ops).entry_count =
        ((tHashTable.init K V n).runOps hk ops).entry_list.length ∧
      (∀ (bin c : Nat),
        ((tHashTable.init K V n).runOps hk ops).cell bin = some c →
        ∃ e, ((tHashTable.init K V n).runOps hk ops).entry_list[c]? =
            some e ∧ e.id = bin) ∧
      GroupedIds
        (bucketIds ((tHashTable.init K V n).runOps hk ops).entry_list) ∧
      (∀ e ∈ ((tHashTable.init K V n).runOps hk ops).entry_list,
        e.id = hk ((tHashTable.init K V n).runOps hk ops).table_size
          e.key) := by
  obtain ⟨hcnt, hl⟩ :=
    tHashTable.runOps_inv hr ops (tHashTable.init_inv hk n hn) hops
  refine ⟨hcnt, ?_, hl.grouped, hl.id_hash⟩
  intro bin c hc
  have hv := hl.cells_ok bin (some c) (cell_join_some hc)
  have h1 := hv.1
  rw [bucketIds_getElem?] at h1
  rcases he : ((tHashTable.init K V n).runOps hk ops).entry_list[c]?
    with _ | e
  · rw [he] at h1
    exact absurd h1 (by simp)
  · rw [he, Option.map_some'] at h1
    exact ⟨e, rfl, by injection h1⟩

/-- Witness for C1 at a concrete hash, size and operation sequence. -/
theorem claim_C1_witness :
    ((tHashTable.init Nat Nat 3).runOps (fun ts k => k % ts)
        [TableOp.add 1 10, TableOp.add 4 40, TableOp.setValue 4 41,
         TableOp.remove 4, TableOp.setTableSize 5]).entry_count =
        ((tHashTable.init Nat Nat 3).runOps (fun ts k => k % ts)
          [TableOp.add 1 10, TableOp.add 4 40, TableOp.setValue 4 41,
           TableOp.remove 4, TableOp.setTableSize 5]).entry_list.length ∧
      (∀ (bin c : Nat),
        ((tHashTable.init Nat Nat 3).runOps (fun ts k => k % ts)
          [TableOp.add 1 10, TableOp.add 4 40, TableOp.setValue 4 41,
           TableOp.remove 4, TableOp.setTableSize 5]).cell bin = some c →
        ∃ e, ((tHashTable.init Nat Nat 3).runOps (fun ts k => k % ts)
            [TableOp.add 1 10, TableOp.add 4 40, TableOp.setValue 4 41,
             TableOp.remove 4, TableOp.setTableSize 5]).entry_list[c]? =
            some e ∧ e.id = bin) ∧
      GroupedIds (bucketIds
        (((tHashTable.init Nat Nat 3).runOps (fun ts k => k % ts)
          [TableOp.add 1 10, TableOp.add 4 40, TableOp.setValue 4 41,
           TableOp.remove 4, TableOp.setTableSize 5]).entry_list)) ∧
      (∀ e ∈ ((tHashTable.init Nat Nat 3).runOps (fun ts k => k % ts)
          [TableOp.add 1 10, TableOp.add 4 40, TableOp.setValue 4 41,
           TableOp.remove 4, TableOp.setTableSize 5]).entry_list,
        e.id = (fun ts k => k % ts)
          (((tHashTable.init Nat Nat 3).runOps (fun ts k => k % ts)
            [TableOp.add 1 10, TableOp.add 4 40, TableOp.setValue 4 41,
             TableOp.remove 4, TableOp.setTableSize 5]).table_size)
          e.key) :=
  claim_C1 (fun ts k => k % ts) (fun _ k hts => Nat.mod_lt k hts) 3
    (by decide)
    [TableOp.add 1 10, TableOp.add 4 40, TableOp.setValue 4 41,
     TableOp.remove 4, TableOp.setTableSize 5]
    (by decide)

/-! ### Reduction lemmas for the individual operations -/

theorem placeEntry_cell_none {K : Type u} {V : Type v} {bin : Nat}
    {e : tHashEntry K V} {entries : List (tHashEntry K V)}
    {cells : List (Option Nat)} (h : (cells[bin]?).join = none) :
    placeEntry bin e entries cells =
      (entries ++ [e], cells.set bin (some entries.length)) := by
  unfold placeEntry
  rw [h]

theorem placeEntry_cell_some {K : Type u} {V : Type v} {bin i : Nat}
    {e : tHashEntry K V} {entries : List (tHashEntry K V)}
    {cells : List (Option Nat)} (h : (cells[bin]?).join = some i) :
    placeEntry bin e entries cells =
      (entries.insertIdx i e,
        (cells.map (cellShiftIns i)).set bin (some i)) := by
  unfold placeEntry
  rw [h]

theorem tHashTable.Add_eq {K : Type u} {V : Type v} {hk : Nat → K → Nat}
    {t : tHashTable K V} {key : K} {data : V} :
    t.Add hk key data =
      ⟨t.entry_count + 1, t.table_size,
        (placeEntry (hk t.table_size key)
          ⟨key, hk t.table_size key, data⟩ t.entry_list t.cell_array).1,
        (placeEntry (hk t.table_size key)
          ⟨key, hk t.table_size key, data⟩ t.entry_list
            t.cell_array).2⟩ := rfl

theorem tHashTable.FindEntry_cell_none {K : Type u} {V : Type v}
    [DecidableEq K] {hk : Nat → K → Nat} {t : tHashTable K V} {key : K}
    (h : t.cell (hk t.table_size key) = none) :
    t.FindEntry hk key = none := by
  unfold tHashTable.FindEntry
  dsimp only
  rw [h]

theorem tHashTable.FindEntry_cell_some {K : Type u} {V : Type v}
    [DecidableEq K] {hk : Nat → K → Nat} {t : tHashTable K V} {key : K}
    {i : Nat} (h : t.cell (hk t.table_size key) = some i) :
    t.FindEntry hk key =
      findRun key (hk t.table_size key) (t.entry_list.drop i) i := by
  unfold tHashTable.FindEntry
  dsimp only
  rw [h]

theorem tHashTable.Remove_cell_none {K : Type u} {V : Type v}
    [DecidableEq K] [Inhabited V] {hk : Nat → K → Nat}
    {t : tHashTable K V} {key : K}
    (h : t.cell (hk t.table_size key) = none) :
    t.Remove hk key = none := by
  unfold tHashTable.Remove
  dsimp only
  rw [h]

theorem tHashTable.Remove_head {K : Type u} {V : Type v} [DecidableEq K]
    [Inhabited V] {hk : Nat → K → Nat} {t : tHashTable K V} {key : K}
    {i : Nat} {e : tHashEntry K V}
    (hc : t.cell (hk t.table_size key) = some i)
    (he : t.entry_list[i]? = some e) (hkey : e.key = key) :
    t.Remove hk key = some (e.data,
      ⟨t.entry_count - 1, t.table_size, t.entry_list.eraseIdx i,
        (t.cell_array.map (cellShiftDel i)).set (hk t.table_size key)
          (match (t.entry_list.eraseIdx i)[i]? with
            | some e2 =>
                if e2.id = hk t.table_size key then some i else none
            | none => none)⟩) := by
  unfold tHashTable.Remove
  dsimp only
  rw [hc]
  dsimp only
  rw [he]
  dsimp only
  rw [if_pos hkey]

theorem tHashTable.Remove_scan {K : Type u} {V : Type v} [DecidableEq K]
    [Inhabited V] {hk : Nat → K → Nat} {t : tHashTable K V} {key : K}
    {i : Nat} {e : tHashEntry K V}
    (hc : t.cell (hk t.table_size key) = some i)
    (he : t.entry_list[i]? = some e) (hkey : ¬e.key = key) :
    t.Remove hk key =
      match findRun key (hk t.table_size key)
          (t.entry_list.drop (i + 1)) (i + 1) with
      | some q => some (q.2.data,
          ⟨t.entry_count - 1, t.table_size, t.entry_list.eraseIdx q.1,
            t.cell_array.map (cellShiftDel q.1)⟩)
      | none => some (default, t) := by
  unfold tHashTable.Remove
  dsimp only
  rw [hc]
  dsimp only
  rw [he]
  dsimp only
  rw [if_neg hkey]

/-! ### Claim C2: duplicate-key shadowing from a fresh table -/

/-- C2: from a fresh table, Add(k,v1) then Add(k,v2) makes Find(k) return
v2 (shadowing); one Remove(k) returns v2 and uncovers v1; a second
Remove(k) returns v1 and leaves the key absent. -/
theorem claim_C2 {K : Type u} {V : Type v} [DecidableEq K] [Inhabited V]
    (hk : Nat → K → Nat) (n : Nat) (k : K) (v1 v2 : V)
    (hb : hk n k < n) :
    ((((tHashTable.init K V n).Add hk k v1).Add hk k v2).Find hk k =
        some v2) ∧
      ∃ t3, (((tHashTable.init K V n).Add hk k v1).Add hk k v2).Remove
            hk k = some (v2, t3) ∧
        t3.Find hk k = some v1 ∧
        ∃ t4, t3.Remove hk k = some (v1, t4) ∧
          t4.HasEntry hk k = false := by
  have hrep : (List.replicate n (none : Option Nat))[hk n k]? =
      some none := by
    rw [List.getElem?_replicate, if_pos hb]
  have hsetlen : hk n k < (List.replicate n (none : Option Nat)).length :=
    by rw [List.length_replicate]; exact hb
  have hself : ∀ c : Option Nat,
      ((List.replicate n (none : Option Nat)).set (hk n k) c)[hk n k]? =
        some c := by
    intro c
    rw [List.getElem?_set, if_pos rfl, if_pos hsetlen]
  -- first Add: empty bucket, append at the tail
  have h1 : (tHashTable.init K V n).Add hk k v1 =
      ⟨1, n, [⟨k, hk n k, v1⟩],
        (List.replicate n none).set (hk n k) (some 0)⟩ := by
    rw [tHashTable.Add_eq]
    dsimp only [tHashTable.init]
    rw [placeEntry_cell_none (by rw [hrep]; rfl)]
    rfl
  -- second Add: occupied bucket, splice before the head
  have h2 : (((tHashTable.init K V n).Add hk k v1).Add hk k v2) =
      ⟨2, n, [⟨k, hk n k, v2⟩, ⟨k, hk n k, v1⟩],
        (List.replicate n none).set (hk n k) (some 0)⟩ := by
    rw [h1, tHashTable.Add_eq]
    dsimp only
    rw [placeEntry_cell_some (show (((List.replicate n none).set (hk n k)
        (some 0))[hk n k]?).join = some 0 by rw [hself]; rfl)]
    rw [List.map_set, List.map_replicate, List.set_set]
    rfl
  rw [h2]
  have hcell2 : (⟨2, n, [⟨k, hk n k, v2⟩, ⟨k, hk n k, v1⟩],
      (List.replicate n none).set (hk n k) (some 0)⟩ :
        tHashTable K V).cell (hk n k) = some 0 := by
    show (((List.replicate n none).set (hk n k) (some 0))[hk n k]?).join
      = some 0
    rw [hself]
    rfl
  refine ⟨?_, ?_⟩
  · rw [tHashTable.Find, tHashTable.FindEntry_cell_some hcell2]
    simp [findRun]
  · refine ⟨⟨1, n, [⟨k, hk n k, v1⟩],
      (List.replicate n none).set (hk n k) (some 0)⟩, ?_, ?_, ?_⟩
    · rw [tHashTable.Remove_head hcell2
        (show (⟨2, n, [⟨k, hk n k, v2⟩, ⟨k, hk n k, v1⟩],
          (List.replicate n none).set (hk n k) (some 0)⟩ :
            tHashTable K V).entry_list[0]? =
          some ⟨k, hk n k, v2⟩ from rfl) rfl]
      rw [List.map_set, List.map_replicate, List.set_set]
      simp [cellShiftDel]
    · have hcell3 : (⟨1, n, [⟨k, hk n k, v1⟩],
          (List.replicate n none).set (hk n k) (some 0)⟩ :
            tHashTable K V).cell (hk n k) = some 0 := by
        show (((List.replicate n none).set (hk n k) (some 0))[hk n k]?).join
          = some 0
        rw [hself]
        rfl
      rw [tHashTable.Find, tHashTable.FindEntry_cell_some hcell3]
      simp [findRun]
    · refine ⟨⟨0, n, [], (List.replicate n none).set (hk n k) none⟩,
        ?_, ?_⟩
      · have hcell3 : (⟨1, n, [⟨k, hk n k, v1⟩],
            (List.replicate n none).set (hk n k) (some 0)⟩ :
              tHashTable K V).cell (hk n k) = some 0 := by
          show (((List.replicate n none).set (hk n k)
            (some 0))[hk n k]?).join = some 0
          rw [hself]
          rfl
        rw [tHashTable.Remove_head hcell3
          (show (⟨1, n, [⟨k, hk n k, v1⟩],
            (List.replicate n none).set (hk n k) (some 0)⟩ :
              tHashTable K V).entry_list[0]? =
            some ⟨k, hk n k, v1⟩ from rfl) rfl]
        rw [List.map_set, List.map_replicate, List.set_set]
        simp [cellShiftDel]
      · have hcell4 : (⟨0, n, [],
            (List.replicate n none).set (hk n k) none⟩ :
              tHashTable K V).cell (hk n k) = none := by
          show (((List.replicate n none).set (hk n k)
            none)[hk n k]?).join = none
          rw [hself]
          rfl
        rw [tHashTable.HasEntry, tHashTable.FindEntry_cell_none hcell4]
        rfl

/-- Witness for C2 at a concrete hash, size, key and values. -/
theorem claim_C2_witness :
    ((((tHashTable.init Nat Nat 3).Add (fun ts k => k % ts) 7 10).Add
        (fun ts k => k % ts) 7 20).Find (fun ts k => k % ts) 7 =
        some 20) ∧
      ∃ t3, (((tHashTable.init Nat Nat 3).Add (fun ts k => k % ts) 7
            10).Add (fun ts k => k % ts) 7 20).Remove
            (fun ts k => k % ts) 7 = some (20, t3) ∧
        t3.Find (fun ts k => k % ts) 7 = some 10 ∧
        ∃ t4, t3.Remove (fun ts k => k % ts) 7 = some (10, t4) ∧
          t4.HasEntry (fun ts k => k % ts) 7 = false :=
  claim_C2 (fun ts k => k % ts) 3 7 10 20 (by decide)

/-! ### Claim C3: placement of a new entry by Add -/

/-- C3: on a coherent table, `Add` appends at the tail and points the slot
at the new entry when the key's bucket is empty; otherwise it splices the
new entry immediately before the bucket's current head (which moves one
position right) and re-points the slot at the new entry; in both cases
the new entry carries the key's hash as its cached id and `entry_count`
grows by exactly one. -/
theorem claim_C3 {K : Type u} {V : Type v} (hk : Nat → K → Nat)
    {t : tHashTable K V} (h : t.Inv hk) (key : K) (data : V)
    (hr : hk t.table_size key < t.table_size) :
    (t.cell (hk t.table_size key) = none →
        (t.Add hk key data).entry_list =
          t.entry_list ++ [⟨key, hk t.table_size key, data⟩] ∧
        (t.Add hk key data).cell (hk t.table_size key) =
          some t.entry_list.length) ∧
      (∀ i : Nat, t.cell (hk t.table_size key) = some i →
        (t.Add hk key data).entry_list =
          t.entry_list.insertIdx i ⟨key, hk t.table_size key, data⟩ ∧
        (t.Add hk key data).cell (hk t.table_size key) = some i ∧
        (t.Add hk key data).entry_list[i]? =
          some ⟨key, hk t.table_size key, data⟩ ∧
        (t.Add hk key data).entry_list[i + 1]? = t.entry_list[i]?) ∧
      (t.Add hk key data).entry_count = t.entry_count + 1 := by
  have hbl : hk t.table_size key < t.cell_array.length := by
    rw [h.2.cells_len]
    exact hr
  refine ⟨?_, ?_, rfl⟩
  · intro hc
    constructor
    · rw [tHashTable.Add_eq]
      show (placeEntry (hk t.table_size key) _ t.entry_list
        t.cell_array).1 = _
      rw [placeEntry_cell_none hc]
    · rw [tHashTable.Add_eq]
      show (((placeEntry (hk t.table_size key)
          ⟨key, hk t.table_size key, data⟩ t.entry_list
          t.cell_array).2)[hk t.table_size key]?).join = _
      rw [placeEntry_cell_none hc]
      rw [List.getElem?_set, if_pos rfl, if_pos hbl]
      rfl
  · intro i hc
    have hv := h.2.cells_ok (hk t.table_size key) (some i)
      (cell_join_some hc)
    have hilen : i < t.entry_list.length := by
      have := (List.getElem?_eq_some.mp hv.1).1
      rw [bucketIds_length] at this
      exact this
    refine ⟨?_, ?_, ?_, ?_⟩
    · rw [tHashTable.Add_eq]
      show (placeEntry (hk t.table_size key) _ t.entry_list
        t.cell_array).1 = _
      rw [placeEntry_cell_some hc]
    · rw [tHashTable.Add_eq]
      show (((placeEntry (hk t.table_size key)
          ⟨key, hk t.table_size key, data⟩ t.entry_list
          t.cell_array).2)[hk t.table_size key]?).join = _
      rw [placeEntry_cell_some hc]
      rw [List.getElem?_set, if_pos rfl,
        if_pos (by rw [List.length_map]; exact hbl)]
      rfl
    · rw [tHashTable.Add_eq]
      show ((placeEntry (hk t.table_size key)
        ⟨key, hk t.table_size key, data⟩ t.entry_list
        t.cell_array).1)[i]? = _
      rw [placeEntry_cell_some hc]
      exact getElem?_insertIdx_self (le_of_lt hilen)
    · rw [tHashTable.Add_eq]
      show ((placeEntry (hk t.table_size key)
        ⟨key, hk t.table_size key, data⟩ t.entry_list
        t.cell_array).1)[i + 1]? = _
      rw [placeEntry_cell_some hc,
        getElem?_insertIdx_gt (le_of_lt hilen) (by omega),
        Nat.add_sub_cancel]

/-- Witness for C3 on a table holding one entry. -/
theorem claim_C3_witness :
    (((tHashTable.init Nat Nat 3).Add (fun ts k => k % ts) 1 10).cell ((fun ts k => k % ts) ((tHashTable.init Nat Nat 3).Add (fun ts k => k % ts) 1 10).table_size 4) = none →
        (((tHashTable.init Nat Nat 3).Add (fun ts k => k % ts) 1 10).Add (fun ts k => k % ts) 4 40).entry_list = ((tHashTable.init Nat Nat 3).Add (fun ts k => k % ts) 1 10).entry_list ++ [(⟨4, ((fun ts k => k % ts) ((tHashTable.init Nat Nat 3).Add (fun ts k => k % ts) 1 10).table_size 4), 40⟩ : tHashEntry Nat Nat)] ∧
        (((tHashTable.init Nat Nat 3).Add (fun ts k => k % ts) 1 10).Add (fun ts k => k % ts) 4 40).cell ((fun ts k => k % ts) ((tHashTable.init Nat Nat 3).Add (fun ts k => k % ts) 1 10).table_size 4) = some ((tHashTable.init Nat Nat 3).Add (fun ts k => k % ts) 1 10).entry_list.length) ∧
      (∀ i : Nat, ((tHashTable.init Nat Nat 3).Add (fun ts k => k % ts) 1 10).cell ((fun ts k => k % ts) ((tHashTable.init Nat Nat 3).Add (fun ts k => k % ts) 1 10).table_size 4) = some i →
        (((tHashTable.init Nat Nat 3).Add (fun ts k => k % ts) 1 10).Add (fun ts k => k % ts) 4 40).entry_list = ((tHashTable.init Nat Nat 3).Add (fun ts k => k % ts) 1 10).entry_list.insertIdx i (⟨4, ((fun ts k => k % ts) ((tHashTable.init Nat Nat 3).Add (fun ts k => k % ts) 1 10).table_size 4), 40⟩ : tHashEntry Nat Nat) ∧
        (((tHashTable.init Nat Nat 3).Add (fun ts k => k % ts) 1 10).Add (fun ts k => k % ts) 4 40).cell ((fun ts k => k % ts) ((tHashTable.init Nat Nat 3).Add (fun ts k => k % ts) 1 10).table_size 4) = some i ∧
        (((tHashTable.init Nat Nat 3).Add (fun ts k => k % ts) 1 10).Add (fun ts k => k % ts) 4 40).entry_list[i]? = some (⟨4, ((fun ts k => k % ts) ((tHashTable.init Nat Nat 3).Add (fun ts k => k % ts) 1 10).table_size 4), 40⟩ : tHashEntry Nat Nat) ∧
        (((tHashTable.init Nat Nat 3).Add (fun ts k => k % ts) 1 10).Add (fun ts k => k % ts) 4 40).entry_list[i + 1]? = ((tHashTable.init Nat Nat 3).Add (fun ts k => k % ts) 1 10).entry_list[i]?) ∧
      (((tHashTable.init Nat Nat 3).Add (fun ts k => k % ts) 1 10).Add (fun ts k => k % ts) 4 40).entry_count = ((tHashTable.init Nat Nat 3).Add (fun ts k => k % ts) 1 10).entry_count + 1 :=
  claim_C3 (fun ts k => k % ts)
    ((tHashTable.Add_inv (tHashTable.init_inv (fun ts k => k % ts) 3
      (by decide)) 1 10 (by decide)).1) 4 40 (by decide)

/-! ### Completeness of the scan and lookup after mutation -/

/-- A failed scan means no key match anywhere in the contiguous id run. -/
theorem findRun_none_keys {K : Type u} {V : Type v} [DecidableEq K]
    {k : K} {bin : Nat} : ∀ {l : List (tHashEntry K V)} {s : Nat},
    findRun k bin l s = none →
    ∀ (j : Nat) (e : tHashEntry K V), l[j]? = some e →
    (∀ m : Nat, m ≤ j → ∃ em : tHashEntry K V,
      l[m]? = some em ∧ em.id = bin) →
    e.key ≠ k := by
  intro l
  induction l with
  | nil =>
      intro s h j e hj _
      exact absurd hj (by simp)
  | cons a rest ih =>
      intro s h j e hj hpre
      unfold findRun at h
      by_cases ha : a.id = bin
      · rw [if_pos ha] at h
        by_cases hkey : a.key = k
        · rw [if_pos hkey] at h
          exact absurd h (by simp)
        · rw [if_neg hkey] at h
          cases j with
          | zero =>
              obtain rfl : a = e := by
                rw [List.getElem?_cons_zero] at hj
                injection hj
              exact hkey
          | succ j =>
              rw [List.getElem?_cons_succ] at hj
              refine ih h j e hj ?_
              intro m hm
              obtain ⟨em, h1, h2⟩ := hpre (m + 1) (by omega)
              rw [List.getElem?_cons_succ] at h1
              exact ⟨em, h1, h2⟩
      · obtain ⟨em, h1, h2⟩ := hpre 0 (Nat.zero_le j)
        rw [List.getElem?_cons_zero] at h1
        obtain rfl : a = em := by injection h1
        exact absurd h2 ha

/-- On a coherent table, a failed lookup means the key is stored nowhere
in the entry list (the run scan is exhaustive for the key's bucket). -/
theorem tHashTable.FindEntry_none_key {K : Type u} {V : Type v}
    [DecidableEq K] {hk : Nat → K → Nat} {t : tHashTable K V}
    (h : t.Inv hk) {key : K} (hr : hk t.table_size key < t.table_size)
    (hf : t.FindEntry hk key = none) :
    ∀ e ∈ t.entry_list, e.key ≠ key := by
  intro e he hkeq
  obtain ⟨m, hm⟩ := List.mem_iff_getElem?.mp he
  have heid : e.id = hk t.table_size key := by
    rw [h.2.id_hash e he, hkeq]
  have hmid : (bucketIds t.entry_list)[m]? =
      some (hk t.table_size key) := by
    rw [bucketIds_getElem?, hm, Option.map_some', heid]
  rcases hcell : t.cell (hk t.table_size key) with _ | i
  · have hcn := cell_join_none (by rw [h.2.cells_len]; exact hr) hcell
    exact h.2.cells_ok _ none hcn m hmid
  · have hv := h.2.cells_ok _ (some i) (cell_join_some hcell)
    rw [tHashTable.FindEntry_cell_some hcell] at hf
    have hmi : i ≤ m := by
      by_contra hlt
      exact hv.2 m (by omega) hmid
    refine findRun_none_keys hf (m - i) e ?_ ?_ hkeq
    · rw [List.getElem?_drop]
      have hx : i + (m - i) = m := by omega
      rw [hx]
      exact hm
    · intro mm hmm
      have hg := h.2.grouped i (i + mm) m _ (by omega) (by omega)
        hv.1 hmid
      rcases hee : t.entry_list[i + mm]? with _ | em
      · rw [bucketIds_getElem?, hee] at hg
        exact absurd hg (by simp)
      · refine ⟨em, ?_, ?_⟩
        · rw [List.getElem?_drop]
          exact hee
        · rw [bucketIds_getElem?, hee, Option.map_some'] at hg
          injection hg

/-- What a successful lookup returns: the entry at the reported position,
with the sought key. -/
theorem tHashTable.FindEntry_sound {K : Type u} {V : Type v}
    [DecidableEq K] {hk : Nat → K → Nat} {t : tHashTable K V} {key : K}
    {p : Nat × tHashEntry K V} (hf : t.FindEntry hk key = some p) :
    t.entry_list[p.1]? = some p.2 ∧ p.2.key = key := by
  rcases hc : t.cell (hk t.table_size key) with _ | i
  · rw [tHashTable.FindEntry_cell_none hc] at hf
    exact absurd hf (by simp)
  · rw [tHashTable.FindEntry_cell_some hc] at hf
    obtain ⟨hq1, hq2, hq3, -⟩ :=
      findRun_sound (q := p.1) (e := p.2) hf
    rw [List.getElem?_drop] at hq2
    have hx : i + (p.1 - i) = p.1 := by omega
    rw [hx] at hq2
    exact ⟨hq2, hq3⟩

/-- A `Remove` whose key is absent from a non-empty bucket run returns a
default-constructed value and the unchanged table. -/
theorem tHashTable.Remove_miss {K : Type u} {V : Type v} [DecidableEq K]
    [Inhabited V] {hk : Nat → K → Nat} {t : tHashTable K V}
    (h : t.Inv hk) {key : K} {i : Nat}
    (hcell : t.cell (hk t.table_size key) = some i)
    (habs : ∀ e ∈ t.entry_list, e.key ≠ key) :
    t.Remove hk key = some (default, t) := by
  have hv := h.2.cells_ok _ (some i) (cell_join_some hcell)
  have hilen : i < t.entry_list.length := by
    have := (List.getElem?_eq_some.mp hv.1).1
    rw [bucketIds_length] at this
    exact this
  rcases he : t.entry_list[i]? with _ | e
  · rw [List.getElem?_eq_getElem hilen] at he
    exact absurd he (by simp)
  · have hekey : ¬e.key = key :=
      habs e (List.mem_iff_getElem?.mpr ⟨i, he⟩)
    rw [tHashTable.Remove_scan hcell he hekey]
    rcases hfr : findRun key (hk t.table_size key)
        (t.entry_list.drop (i + 1)) (i + 1) with _ | q
    · rfl
    · obtain ⟨hq1, hq2, hq3, -⟩ := findRun_sound hfr
      rw [List.getElem?_drop] at hq2
      have hx : i + 1 + (q.1 - (i + 1)) = q.1 := by omega
      rw [hx] at hq2
      exact absurd hq3 (habs q.2 (List.mem_iff_getElem?.mpr ⟨q.1, hq2⟩))

/-- Dropping up to the insertion point exposes the inserted element at
the head of the bucket run. -/
theorem drop_insertIdx_self {α : Type u} :
    ∀ {i : Nat} {l : List α} (x : α), i ≤ l.length →
    (l.insertIdx i x).drop i = x :: l.drop i := by
  intro i
  induction i with
  | zero => intro l x _; rfl
  | succ i ih =>
      intro l x h
      cases l with
      | nil => exact absurd h (by simp)
      | cons a l =>
          rw [List.insertIdx_succ_cons, List.drop_succ_cons,
            List.drop_succ_cons]
          exact ih x (by simpa using h)

/-- Lookup after `Add` returns the just-inserted data. -/
theorem tHashTable.Find_Add {K : Type u} {V : Type v} [DecidableEq K]
    {hk : Nat → K → Nat} {t : tHashTable K V} (h : t.Inv hk) (key : K)
    (data : V) (hr : hk t.table_size key < t.table_size) :
    (t.Add hk key data).Find hk key = some data := by
  have hbl : hk t.table_size key < t.cell_array.length := by
    rw [h.2.cells_len]
    exact hr
  rcases hc : t.cell (hk t.table_size key) with _ | i
  · have hAdd : t.Add hk key data = ⟨t.entry_count + 1, t.table_size,
        t.entry_list ++ [⟨key, hk t.table_size key, data⟩],
        t.cell_array.set (hk t.table_size key)
          (some t.entry_list.length)⟩ := by
      rw [tHashTable.Add_eq, placeEntry_cell_none hc]
    rw [hAdd]
    have hcell2 : (⟨t.entry_count + 1, t.table_size,
        t.entry_list ++ [⟨key, hk t.table_size key, data⟩],
        t.cell_array.set (hk t.table_size key)
          (some t.entry_list.length)⟩ : tHashTable K V).cell
          (hk t.table_size key) = some t.entry_list.length := by
      show ((t.cell_array.set (hk t.table_size key)
        (some t.entry_list.length))[hk t.table_size key]?).join = _
      rw [List.getElem?_set, if_pos rfl, if_pos hbl]
      rfl
    rw [tHashTable.Find, tHashTable.FindEntry_cell_some hcell2]
    show (Option.map (fun p : Nat × tHashEntry K V => p.2.data)
      (findRun key (hk t.table_size key)
        ((t.entry_list ++
          [(⟨key, hk t.table_size key, data⟩ : tHashEntry K V)]).drop
          t.entry_list.length) t.entry_list.length)) = some data
    rw [List.drop_left]
    simp [findRun]
  · have hv := h.2.cells_ok _ (some i) (cell_join_some hc)
    have hilen : i < t.entry_list.length := by
      have := (List.getElem?_eq_some.mp hv.1).1
      rw [bucketIds_length] at this
      exact this
    have hAdd : t.Add hk key data = ⟨t.entry_count + 1, t.table_size,
        t.entry_list.insertIdx i ⟨key, hk t.table_size key, data⟩,
        (t.cell_array.map (cellShiftIns i)).set (hk t.table_size key)
          (some i)⟩ := by
      rw [tHashTable.Add_eq, placeEntry_cell_some hc]
    rw [hAdd]
    have hcell2 : (⟨t.entry_count + 1, t.table_size,
        t.entry_list.insertIdx i ⟨key, hk t.table_size key, data⟩,
        (t.cell_array.map (cellShiftIns i)).set (hk t.table_size key)
          (some i)⟩ : tHashTable K V).cell (hk t.table_size key) =
          some i := by
      show (((t.cell_array.map (cellShiftIns i)).set
        (hk t.table_size key) (some i))[hk t.table_size key]?).join = _
      rw [List.getElem?_set, if_pos rfl,
        if_pos (by rw [List.length_map]; exact hbl)]
      rfl
    rw [tHashTable.Find, tHashTable.FindEntry_cell_some hcell2]
    show (Option.map (fun p : Nat × tHashEntry K V => p.2.data)
      (findRun key (hk t.table_size key)
        ((t.entry_list.insertIdx i
          (⟨key, hk t.table_size key, data⟩ : tHashEntry K V)).drop i)
        i)) = some data
    rw [drop_insertIdx_self _ (le_of_lt hilen)]
    simp [findRun]

/-- `setDataAt` commutes with dropping a prefix before its position. -/
theorem drop_setDataAt {K : Type u} {V : Type v} {v : V} :
    ∀ (l : List (tHashEntry K V)) (i q : Nat), i ≤ q →
    (setDataAt v l q).drop i = setDataAt v (l.drop i) (q - i) := by
  intro l
  induction l with
  | nil =>
      intro i q h
      show ([] : List (tHashEntry K V)).drop i = _
      rw [List.drop_nil]
      rfl
  | cons a rest ih =>
      intro i q h
      cases i with
      | zero => rfl
      | succ i =>
          cases q with
          | zero => omega
          | succ q =>
              have h1 : setDataAt v (a :: rest) (q + 1) =
                  a :: setDataAt v rest q := rfl
              have h2 : q + 1 - (i + 1) = q - i := by omega
              rw [h1, List.drop_succ_cons, List.drop_succ_cons, h2]
              exact ih i q (by omega)

/-- The scan re-finds the same position after its data is overwritten. -/
theorem findRun_setDataAt {K : Type u} {V : Type v} [DecidableEq K]
    {k : K} {bin : Nat} {v : V} : ∀ {l : List (tHashEntry K V)}
    {s q : Nat} {e : tHashEntry K V}, findRun k bin l s = some (q, e) →
    findRun k bin (setDataAt v l (q - s)) s =
      some (q, ⟨e.key, e.id, v⟩) := by
  intro l
  induction l with
  | nil =>
      intro s q e h
      exact absurd h (by simp [findRun])
  | cons a rest ih =>
      intro s q e h
      unfold findRun at h
      by_cases ha : a.id = bin
      · rw [if_pos ha] at h
        by_cases hkey : a.key = k
        · rw [if_pos hkey] at h
          have h1 : (s, a) = (q, e) := by injection h
          obtain ⟨rfl, rfl⟩ : s = q ∧ a = e :=
            ⟨congrArg Prod.fst h1, congrArg Prod.snd h1⟩
          have h2 : s - s = 0 := by omega
          rw [h2]
          show findRun k bin (⟨a.key, a.id, v⟩ :: rest) s = _
          unfold findRun
          rw [if_pos ha, if_pos hkey]
        · rw [if_neg hkey] at h
          have hsq : s + 1 ≤ q := (findRun_sound h).1
          obtain ⟨d, hd⟩ : ∃ d, q - s = d + 1 := ⟨q - s - 1, by omega⟩
          rw [hd]
          show findRun k bin (a :: setDataAt v rest d) s = _
          unfold findRun
          rw [if_pos ha, if_neg hkey]
          have hd2 : d = q - (s + 1) := by omega
          rw [hd2]
          exact ih h
      · rw [if_neg ha] at h
        exact absurd h (by simp)

/-- Lookup after `SetValue` returns the just-set data. -/
theorem tHashTable.Find_SetValue {K : Type u} {V : Type v}
    [DecidableEq K] {hk : Nat → K → Nat} {t : tHashTable K V}
    (h : t.Inv hk) (key : K) (data : V)
    (hr : hk t.table_size key < t.table_size) :
    (t.SetValue hk key data).Find hk key = some data := by
  unfold tHashTable.SetValue
  rcases hf : t.FindEntry hk key with _ | p
  · exact tHashTable.Find_Add h key data hr
  · rcases hc : t.cell (hk t.table_size key) with _ | i
    · rw [tHashTable.FindEntry_cell_none hc] at hf
      exact absurd hf (by simp)
    · rw [tHashTable.FindEntry_cell_some hc] at hf
      have hf' : findRun key (hk t.table_size key)
          (t.entry_list.drop i) i = some (p.1, p.2) := hf
      have hq1 : i ≤ p.1 := (findRun_sound hf').1
      have hcell2 : (⟨t.entry_count, t.table_size,
          setDataAt data t.entry_list p.1, t.cell_array⟩ :
            tHashTable K V).cell (hk t.table_size key) = some i := hc
      show (⟨t.entry_count, t.table_size,
        setDataAt data t.entry_list p.1, t.cell_array⟩ :
          tHashTable K V).Find hk key = some data
      rw [tHashTable.Find, tHashTable.FindEntry_cell_some hcell2]
      show (Option.map (fun p : Nat × tHashEntry K V => p.2.data)
        (findRun key (hk t.table_size key)
          ((setDataAt data t.entry_list p.1).drop i) i)) = some data
      rw [drop_setDataAt _ i p.1 hq1, findRun_setDataAt hf']
      rfl

/-- Overwriting one entry's data does not change how many entries carry a
given key. -/
theorem countP_key_setDataAt {K : Type u} {V : Type v} [DecidableEq K]
    {key : K} {v : V} : ∀ (l : List (tHashEntry K V)) (i : Nat),
    List.countP (fun e => decide (e.key = key)) (setDataAt v l i) =
      List.countP (fun e => decide (e.key = key)) l := by
  intro l
  induction l with
  | nil => intro i; rfl
  | cons a rest ih =>
      intro i
      cases i with
      | zero =>
          rw [show setDataAt v (a :: rest) 0 =
            ⟨a.key, a.id, v⟩ :: rest from rfl]
          rw [List.countP_cons, List.countP_cons]
      | succ i =>
          rw [show setDataAt v (a :: rest) (i + 1) =
            a :: setDataAt v rest i from rfl]
          rw [List.countP_cons, List.countP_cons, ih i]

/-! ### Claim C4: SetValue is a duplicate-free upsert -/

/-- C4: on a coherent table, `SetValue` on a present key mutates the found
entry's data in place (same list length, same `entry_count`); on an absent
key it is exactly `Add`; afterwards lookup returns the just-set value, and
the number of entries carrying the key becomes one if it was absent and is
otherwise unchanged (no duplicates accumulate). -/
theorem claim_C4 {K : Type u} {V : Type v} [DecidableEq K]
    (hk : Nat → K → Nat) {t : tHashTable K V} (h : t.Inv hk) (key : K)
    (data : V) (hr : hk t.table_size key < t.table_size) :
    (t.FindEntry hk key = none →
        t.SetValue hk key data = t.Add hk key data) ∧
      (∀ p : Nat × tHashEntry K V, t.FindEntry hk key = some p →
        (t.SetValue hk key data).entry_list =
          setDataAt data t.entry_list p.1 ∧
        (t.SetValue hk key data).entry_count = t.entry_count ∧
        (t.SetValue hk key data).entry_list.length =
          t.entry_list.length) ∧
      (t.SetValue hk key data).Find hk key = some data ∧
      List.countP (fun e => decide (e.key = key))
          (t.SetValue hk key data).entry_list =
        max 1 (List.countP (fun e => decide (e.key = key))
          t.entry_list) := by
  refine ⟨?_, ?_, tHashTable.Find_SetValue h key data hr, ?_⟩
  · intro hf
    unfold tHashTable.SetValue
    rw [hf]
  · intro p hf
    unfold tHashTable.SetValue
    rw [hf]
    exact ⟨rfl, rfl, setDataAt_length t.entry_list p.1⟩
  · unfold tHashTable.SetValue
    rcases hf : t.FindEntry hk key with _ | p
    · have habs := tHashTable.FindEntry_none_key h hr hf
      have hzero : List.countP (fun e => decide (e.key = key))
          t.entry_list = 0 := by
        rw [List.countP_eq_zero]
        intro e he
        simp only [decide_eq_true_eq]
        exact habs e he
      have hperm := (tHashTable.Add_inv h key data hr).2.1
      rw [hperm.countP_eq, List.countP_cons, hzero]
      simp
    · have hsound := tHashTable.FindEntry_sound hf
      have hpos : 0 < List.countP (fun e => decide (e.key = key))
          t.entry_list := by
        rw [List.countP_pos_iff]
        exact ⟨p.2, List.mem_iff_getElem?.mpr ⟨p.1, hsound.1⟩,
          by simp only [decide_eq_true_eq]; exact hsound.2⟩
      show List.countP (fun e => decide (e.key = key))
        (setDataAt data t.entry_list p.1) = _
      rw [countP_key_setDataAt]
      omega

/-! ### Claims C5 and C10: Remove error behaviour -/

/-- C5: `Remove` on a key whose bucket slot is empty dies on the fatal
assertion (modelled as `none`) instead of producing a value; `Remove` on a
key absent from a non-empty bucket run silently produces a
default-constructed value, with no failure signal. -/
theorem claim_C5 {K : Type u} {V : Type v} [DecidableEq K] [Inhabited V]
    (hk : Nat → K → Nat) {t : tHashTable K V} (h : t.Inv hk) (key : K)
    (hr : hk t.table_size key < t.table_size) :
    (t.cell (hk t.table_size key) = none → t.Remove hk key = none) ∧
      (∀ i : Nat, t.cell (hk t.table_size key) = some i →
        t.HasEntry hk key = false →
        t.Remove hk key = some (default, t)) := by
  refine ⟨fun hc => tHashTable.Remove_cell_none hc, ?_⟩
  intro i hc hhas
  have hf : t.FindEntry hk key = none := by
    rcases hff : t.FindEntry hk key with _ | p
    · rfl
    · rw [tHashTable.HasEntry, hff] at hhas
      exact absurd hhas (by simp)
  exact tHashTable.Remove_miss h hc (tHashTable.FindEntry_none_key h hr hf)

/-- Witness for C5 on a one-entry table and an absent key. -/
theorem claim_C5_witness :
    (((tHashTable.init Nat Nat 3).Add (fun ts k => k % ts) 1 10).cell
        ((fun ts k => k % ts)
          (((tHashTable.init Nat Nat 3).Add (fun ts k => k % ts) 1
            10).table_size) 7) = none →
      ((tHashTable.init Nat Nat 3).Add (fun ts k => k % ts) 1
        10).Remove (fun ts k => k % ts) 7 = none) ∧
      (∀ i : Nat, ((tHashTable.init Nat Nat 3).Add (fun ts k => k % ts)
          1 10).cell ((fun ts k => k % ts)
            (((tHashTable.init Nat Nat 3).Add (fun ts k => k % ts) 1
              10).table_size) 7) = some i →
        ((tHashTable.init Nat Nat 3).Add (fun ts k => k % ts) 1
          10).HasEntry (fun ts k => k % ts) 7 = false →
        ((tHashTable.init Nat Nat 3).Add (fun ts k => k % ts) 1
          10).Remove (fun ts k => k % ts) 7 =
          some (default, (tHashTable.init Nat Nat 3).Add
            (fun ts k => k % ts) 1 10)) :=
  claim_C5 (fun ts k => k % ts)
    ((tHashTable.Add_inv (tHashTable.init_inv (fun ts k => k % ts) 3
      (by decide)) 1 10 (by decide)).1) 7 (by decide)

/-- C10: a `Remove` that misses inside a non-empty bucket run is atomic:
it returns the default value together with the *identical* table — entry
list, entry count and every cell-array slot unchanged. -/
theorem claim_C10 {K : Type u} {V : Type v} [DecidableEq K] [Inhabited V]
    (hk : Nat → K → Nat) {t : tHashTable K V} (h : t.Inv hk) (key : K)
    (hr : hk t.table_size key < t.table_size) :
    ∀ i : Nat, t.cell (hk t.table_size key) = some i →
      t.HasEntry hk key = false →
      t.Remove hk key = some (default, t) ∧
        ((t.Remove hk key).map fun p => p.2.entry_list) =
          some t.entry_list ∧
        ((t.Remove hk key).map fun p => p.2.entry_count) =
          some t.entry_count ∧
        ((t.Remove hk key).map fun p => p.2.cell_array) =
          some t.cell_array := by
  intro i hc hhas
  have hf : t.FindEntry hk key = none := by
    rcases hff : t.FindEntry hk key with _ | p
    · rfl
    · rw [tHashTable.HasEntry, hff] at hhas
      exact absurd hhas (by simp)
  have hmiss := tHashTable.Remove_miss h hc
    (tHashTable.FindEntry_none_key h hr hf)
  rw [hmiss]
  exact ⟨rfl, rfl, rfl, rfl⟩

/-- Witness for C10 on a one-entry table and an absent key of the same
bucket. -/
theorem claim_C10_witness :
    ((tHashTable.init Nat Nat 3).Add (fun ts k => k % ts) 4 40).Remove (fun ts k => k % ts) 7 = some (default, ((tHashTable.init Nat Nat 3).Add (fun ts k => k % ts) 4 40)) ∧
      ((((tHashTable.init Nat Nat 3).Add (fun ts k => k % ts) 4 40).Remove (fun ts k => k % ts) 7).map
          fun p => p.2.entry_list) = some ((tHashTable.init Nat Nat 3).Add (fun ts k => k % ts) 4 40).entry_list ∧
      ((((tHashTable.init Nat Nat 3).Add (fun ts k => k % ts) 4 40).Remove (fun ts k => k % ts) 7).map
          fun p => p.2.entry_count) = some ((tHashTable.init Nat Nat 3).Add (fun ts k => k % ts) 4 40).entry_count ∧
      ((((tHashTable.init Nat Nat 3).Add (fun ts k => k % ts) 4 40).Remove (fun ts k => k % ts) 7).map
          fun p => p.2.cell_array) = some ((tHashTable.init Nat Nat 3).Add (fun ts k => k % ts) 4 40).cell_array :=
  claim_C10 (fun ts k => k % ts)
    ((tHashTable.Add_inv (tHashTable.init_inv (fun ts k => k % ts) 3
      (by decide)) 4 40 (by decide)).1) 7 (by decide) 0 (by decide)
    (by decide)

/-! ### The AsLists output: sorted keys with parallel values -/

/-- Inserting at the boundary found by the `cur_key > ...` scan keeps the
output key list sorted. -/
theorem sorted_insertIdx_takeWhile {K : Type u} [LinearOrder K] (k : K) :
    ∀ {l : List K}, List.Sorted (· ≤ ·) l →
    List.Sorted (· ≤ ·)
      (l.insertIdx (l.takeWhile fun x => x < k).length k) := by
  intro l
  induction l with
  | nil => intro _; exact List.sorted_singleton k
  | cons a rest ih =>
      intro hs
      rw [List.sorted_cons] at hs
      by_cases ha : a < k
      · have ht : ((a :: rest).takeWhile fun x => x < k) =
            a :: (rest.takeWhile fun x => x < k) := by
          simp [List.takeWhile_cons, ha]
        rw [ht]
        show List.Sorted (· ≤ ·) (List.insertIdx
          ((rest.takeWhile fun x => x < k).length + 1) k (a :: rest))
        rw [List.insertIdx_succ_cons, List.sorted_cons]
        refine ⟨?_, ih hs.2⟩
        intro b hb
        rcases (List.mem_insertIdx
            ((List.takeWhile_sublist _).length_le)).mp hb with hb | hb
        · rw [hb]
          exact le_of_lt ha
        · exact hs.1 b hb
      · have ht : ((a :: rest).takeWhile fun x => x < k) = [] := by
          simp [List.takeWhile_cons, ha]
        rw [ht]
        show List.Sorted (· ≤ ·) (k :: a :: rest)
        rw [List.sorted_cons]
        refine ⟨?_, List.sorted_cons.mpr hs⟩
        intro b hb
        rcases List.mem_cons.mp hb with hb | hb
        · rw [hb]
          exact le_of_not_lt ha
        · exact (le_of_not_lt ha).trans (hs.1 b hb)

/-- Inserting at the same position of two parallel lists inserts the pair
at that position of their zip. -/
theorem zip_insertIdx {α : Type u} {β : Type v} :
    ∀ {l1 : List α} {l2 : List β} {m : Nat} (a : α) (b : β),
    l1.length = l2.length → m ≤ l1.length →
    (l1.insertIdx m a).zip (l2.insertIdx m b) =
      (l1.zip l2).insertIdx m (a, b) := by
  intro l1
  induction l1 with
  | nil =>
      intro l2 m a b hlen hm
      cases l2 with
      | nil =>
          obtain rfl : m = 0 := by simpa using hm
          rfl
      | cons y l2 => exact absurd hlen (by simp)
  | cons x l1 ih =>
      intro l2 m a b hlen hm
      cases l2 with
      | nil => exact absurd hlen (by simp)
      | cons y l2 =>
          cases m with
          | zero => rfl
          | succ m =>
              rw [List.insertIdx_succ_cons, List.insertIdx_succ_cons]
              show (x, y) :: (l1.insertIdx m a).zip (l2.insertIdx m b) = _
              rw [ih a b (by simpa using hlen) (by simpa using hm)]
              rfl

/-- The `AsLists` loop keeps the outputs parallel and the key list
sorted, and its zipped output is a permutation of the processed
key/value pairs on top of the accumulator. -/
theorem asLists_fold {K : Type u} {V : Type v} [LinearOrder K] :
    ∀ (l : List (tHashEntry K V)) (acc : List K × List V),
    acc.1.length = acc.2.length → List.Sorted (· ≤ ·) acc.1 →
    (l.foldl asListsStep acc).1.length =
        (l.foldl asListsStep acc).2.length ∧
      List.Sorted (· ≤ ·) (l.foldl asListsStep acc).1 ∧
      ((l.foldl asListsStep acc).1.zip
          (l.foldl asListsStep acc).2).Perm
        ((l.map fun e => (e.key, e.data)) ++ acc.1.zip acc.2) := by
  intro l
  induction l with
  | nil =>
      intro acc h1 h2
      exact ⟨h1, h2, by simp⟩
  | cons cur rest ih =>
      intro acc h1 h2
      have hm1 : (acc.1.takeWhile fun x => x < cur.key).length ≤
          acc.1.length := (List.takeWhile_sublist _).length_le
      have hm2 : (acc.1.takeWhile fun x => x < cur.key).length ≤
          acc.2.length := by omega
      have hstep : asListsStep acc cur =
          (acc.1.insertIdx (acc.1.takeWhile fun x => x < cur.key).length
            cur.key,
           acc.2.insertIdx (acc.1.takeWhile fun x => x < cur.key).length
            cur.data) := rfl
      have hlen2 : (asListsStep acc cur).1.length =
          (asListsStep acc cur).2.length := by
        rw [hstep]
        show (acc.1.insertIdx _ cur.key).length =
          (acc.2.insertIdx _ cur.data).length
        rw [List.length_insertIdx _ _ hm1, List.length_insertIdx _ _ hm2,
          h1]
      have hsort2 : List.Sorted (· ≤ ·) (asListsStep acc cur).1 :=
        sorted_insertIdx_takeWhile cur.key h2
      obtain ⟨ha, hb, hc2⟩ := ih (asListsStep acc cur) hlen2 hsort2
      refine ⟨ha, hb, ?_⟩
      refine hc2.trans ?_
      have hzip : (asListsStep acc cur).1.zip (asListsStep acc cur).2 =
          (acc.1.zip acc.2).insertIdx
            (acc.1.takeWhile fun x => x < cur.key).length
            (cur.key, cur.data) := by
        rw [hstep]
        exact zip_insertIdx _ _ h1 hm1
      rw [hzip]
      refine (List.Perm.append_left _
        (List.perm_insertIdx _ _ ?_)).trans ?_
      · rw [List.length_zip]
        omega
      · rw [List.map_cons]
        exact List.perm_middle

/-- The full `AsLists` characterization: the key output is ascending and
the zipped output is a permutation of the stored key/value pairs. -/
theorem tHashTable.AsLists_spec {K : Type u} {V : Type v} [LinearOrder K]
    (t : tHashTable K V) :
    List.Sorted (· ≤ ·) (t.AsLists).1 ∧
      ((t.AsLists).1.zip (t.AsLists).2).Perm
        (t.entry_list.map fun e => (e.key, e.data)) := by
  obtain ⟨-, hb, hc2⟩ := asLists_fold t.entry_list ([], []) rfl
    List.sorted_nil
  exact ⟨hb, by simpa using hc2⟩

/-! ### Claim C7 -/

/-- C7: `AsLists` produces the key list in ascending order regardless of
internal bucket order, and the i-th output value is the value of the
entry paired with the i-th output key (the zipped output is exactly the
stored pairs, as a permutation). -/
theorem claim_C7 {K : Type u} {V : Type v} [LinearOrder K]
    (t : tHashTable K V) :
    List.Sorted (· ≤ ·) (t.AsLists).1 ∧
      ((t.AsLists).1.zip (t.AsLists).2).Perm
        (t.entry_list.map fun e => (e.key, e.data)) :=
  t.AsLists_spec

/-! ### Claim C6 -/

/-- C6: for any contents of a coherent table and any positive new size,
`SetTableSize` preserves the key/value snapshot as a multiset, recomputes
every cached bucket id under the new size, and re-establishes the
grouping invariant. -/
theorem claim_C6 {K : Type u} {V : Type v} [LinearOrder K]
    (hk : Nat → K → Nat) {t : tHashTable K V} (h : t.Inv hk) (ns : Nat)
    (hns : 0 < ns) (hr : ∀ k : K, hk ns k < ns) :
    ((((t.SetTableSize hk ns).AsLists).1.zip
        ((t.SetTableSize hk ns).AsLists).2 : List (K × V)) :
        Multiset (K × V)) =
      (((t.AsLists).1.zip (t.AsLists).2 : List (K × V)) :
        Multiset (K × V)) ∧
      (∀ e ∈ (t.SetTableSize hk ns).entry_list, e.id = hk ns e.key) ∧
      GroupedIds (bucketIds (t.SetTableSize hk ns).entry_list) := by
  obtain ⟨hInv, hts, hperm⟩ := tHashTable.SetTableSize_inv h ns hns hr
  refine ⟨?_, ?_, hInv.2.grouped⟩
  · rw [Multiset.coe_eq_coe]
    refine (t.SetTableSize hk ns).AsLists_spec.2.trans ?_
    refine ((hperm.map fun e => (e.key, e.data)).trans ?_).trans
      t.AsLists_spec.2.symm
    rw [List.map_map]
    rfl
  · intro e he
    have := hInv.2.id_hash e he
    rw [hts] at this
    exact this

/-- Witness for C6: resizing a two-entry table from 3 to 5 buckets. -/
theorem claim_C6_witness :
    ((((((tHashTable.init Nat Nat 3).Add (fun ts k => k % ts) 1
          10).Add (fun ts k => k % ts) 4 40).SetTableSize
          (fun ts k => k % ts) 5).AsLists).1.zip
        (((((tHashTable.init Nat Nat 3).Add (fun ts k => k % ts) 1
          10).Add (fun ts k => k % ts) 4 40).SetTableSize
          (fun ts k => k % ts) 5).AsLists).2 : Multiset (Nat × Nat)) =
      (((((tHashTable.init Nat Nat 3).Add (fun ts k => k % ts) 1
          10).Add (fun ts k => k % ts) 4 40).AsLists).1.zip
        ((((tHashTable.init Nat Nat 3).Add (fun ts k => k % ts) 1
          10).Add (fun ts k => k % ts) 4 40).AsLists).2 :
        Multiset (Nat × Nat)) ∧
      (∀ e ∈ ((((tHashTable.init Nat Nat 3).Add (fun ts k => k % ts) 1
          10).Add (fun ts k => k % ts) 4 40).SetTableSize
          (fun ts k => k % ts) 5).entry_list,
        e.id = (fun ts k => k % ts) 5 e.key) ∧
      GroupedIds (bucketIds ((((tHashTable.init Nat Nat 3).Add
          (fun ts k => k % ts) 1 10).Add (fun ts k => k % ts) 4
          40).SetTableSize (fun ts k => k % ts) 5).entry_list) :=
  claim_C6 (fun ts k => k % ts)
    ((tHashTable.Add_inv ((tHashTable.Add_inv (tHashTable.init_inv
      (fun ts k => k % ts) 3 (by decide)) 1 10 (by decide)).1) 4 40
      (by decide)).1) 5 (by decide)
    (fun k => Nat.mod_lt k (by decide))

/-- Witness for C4 on a one-entry table, overwriting the present key. -/
theorem claim_C4_witness :
    (((tHashTable.init Nat Nat 3).Add (fun ts k => k % ts) 1 10).FindEntry (fun ts k => k % ts) 1 = none →
        ((tHashTable.init Nat Nat 3).Add (fun ts k => k % ts) 1 10).SetValue (fun ts k => k % ts) 1 99 =
          ((tHashTable.init Nat Nat 3).Add (fun ts k => k % ts) 1 10).Add (fun ts k => k % ts) 1 99) ∧
      (∀ p : Nat × tHashEntry Nat Nat,
        ((tHashTable.init Nat Nat 3).Add (fun ts k => k % ts) 1 10).FindEntry (fun ts k => k % ts) 1 = some p →
        (((tHashTable.init Nat Nat 3).Add (fun ts k => k % ts) 1 10).SetValue (fun ts k => k % ts) 1 99).entry_list =
          setDataAt 99 ((tHashTable.init Nat Nat 3).Add (fun ts k => k % ts) 1 10).entry_list p.1 ∧
        (((tHashTable.init Nat Nat 3).Add (fun ts k => k % ts) 1 10).SetValue (fun ts k => k % ts) 1 99).entry_count =
          ((tHashTable.init Nat Nat 3).Add (fun ts k => k % ts) 1 10).entry_count ∧
        (((tHashTable.init Nat Nat 3).Add (fun ts k => k % ts) 1 10).SetValue (fun ts k => k % ts) 1 99).entry_list.length =
          ((tHashTable.init Nat Nat 3).Add (fun ts k => k % ts) 1 10).entry_list.length) ∧
      (((tHashTable.init Nat Nat 3).Add (fun ts k => k % ts) 1 10).SetValue (fun ts k => k % ts) 1 99).Find
        (fun ts k => k % ts) 1 = some 99 ∧
      List.countP (fun e => decide (e.key = 1))
          (((tHashTable.init Nat Nat 3).Add (fun ts k => k % ts) 1 10).SetValue (fun ts k => k % ts) 1 99).entry_list =
        max 1 (List.countP (fun e => decide (e.key = 1))
          ((tHashTable.init Nat Nat 3).Add (fun ts k => k % ts) 1 10).entry_list) :=
  claim_C4 (fun ts k => k % ts)
    ((tHashTable.Add_inv (tHashTable.init_inv (fun ts k => k % ts) 3
      (by decide)) 1 10 (by decide)).1) 1 99 (by decide)

/-! ### The dictionary layer (tDictionary.h) -/

/-- `tDictionary`: a facade over `tHashTable<cString, T>` — text keys
(modelled as character lists, ordered lexicographically) with the
summed-character-code hash; adds `NearMatch` and `Load`. -/
structure tDictionary (V : Type v) where
  m_hash : tHashTable (List Char) V

/-- The `tDictionary(int in_hash_size)` constructor. -/
def tDictionary.init (V : Type v) (in_hash_size : Nat) : tDictionary V :=
  ⟨tHashTable.init (List Char) V in_hash_size⟩

/-- `tDictionary::Add`, delegating to the wrapped table. -/
def tDictionary.Add {V : Type v} (d : tDictionary V) (name : List Char)
    (data : V) : tDictionary V :=
  ⟨d.m_hash.Add hashKeyString name data⟩

/-- `tDictionary::SetValue`, delegating to the wrapped table. -/
def tDictionary.SetValue {V : Type v} (d : tDictionary V)
    (name : List Char) (data : V) : tDictionary V :=
  ⟨d.m_hash.SetValue hashKeyString name data⟩

/-- `tDictionary::Find`, delegating to the wrapped table. -/
def tDictionary.Find {V : Type v} (d : tDictionary V)
    (name : List Char) : Option V :=
  d.m_hash.Find hashKeyString name

/-- Modelled from the spec: `cStringUtil::EditDistance` is not under
src/; the spec describes it as "an edit-distance (Levenshtein)" between
the query and a stored key.  The structural fuel (never exhausted when it
is at least the total length of the inputs) keeps the recursion
kernel-computable. -/
def edAux : Nat → List Char → List Char → Nat
  | 0, _, _ => 0
  | _ + 1, [], t => t.length
  | _ + 1, a :: s, [] => (a :: s).length
  | fuel + 1, a :: s, b :: t =>
      if a = b then edAux fuel s t
      else 1 + min (edAux fuel s t)
        (min (edAux fuel (a :: s) t) (edAux fuel s (b :: t)))

/-- Modelled from the spec: Levenshtein distance between two texts. -/
def editDistance (a b : List Char) : Nat :=
  edAux (a.length + b.length) a b

/-- The body of the `NearMatch` scan: a key is accepted only when its
distance is strictly below the best so far. -/
def nearStep (name : List Char) (best : List Char × Nat)
    (k : List Char) : List Char × Nat :=
  let dist := editDistance name k
  if dist < best.2 then (k, dist) else best

/-- `NearMatch(name)`: take the ascending key snapshot, seed the best
distance at the query's length (and the best match at the empty string),
scan all keys, and return the best match. -/
def tDictionary.NearMatch {V : Type v} (d : tDictionary V)
    (name : List Char) : List Char :=
  ((d.m_hash.AsLists).1.foldl (nearStep name) ([], name.length)).1

/-- Modelled from the spec: `cString::Pop(assign)` and
`cStringUtil::Convert` are not under src/.  `Pop` splits the string at
the first occurrence of the separator (key before it, remainder after,
separator dropped); `Convert` is the shared string-to-value conversion,
modelled as a caller-supplied partial function; per the spec a conversion
failure is an error the dictionary propagates rather than masks. -/
def tDictionary.Load {V : Type v} (conv : List Char → Option V)
    (d : tDictionary V) (load_string : List Char) (assign : Char) :
    Option (tDictionary V) :=
  let key := load_string.takeWhile fun ch => ch ≠ assign
  let rest := (load_string.dropWhile fun ch => ch ≠ assign).drop 1
  match conv rest with
  | none => none
  | some value => some (d.SetValue key value)

/-! ### Claim C8: NearMatch -/

/-- A fold whose every candidate is at least the current best leaves the
accumulator untouched. -/
theorem nearFold_min {q : List Char} :
    ∀ (keys : List (List Char)) (b : List Char × Nat),
    (∀ s ∈ keys, b.2 ≤ editDistance q s) →
    keys.foldl (nearStep q) b = b := by
  intro keys
  induction keys with
  | nil => intro b _; rfl
  | cons kk rest ih =>
      intro b hall
      have hstep : nearStep q b kk = b := by
        unfold nearStep
        rw [if_neg (by
          have := hall kk (List.mem_cons_self kk rest)
          omega)]
      show rest.foldl (nearStep q) (nearStep q b kk) = b
      rw [hstep]
      exact ih b (fun s hs => hall s (List.mem_cons_of_mem _ hs))

/-- The fold returns the first candidate that is minimal among all
candidates and beats the seed: every earlier candidate is strictly worse,
so ties go to the earliest. -/
theorem nearFold_first {q : List Char} :
    ∀ (keys : List (List Char)) (b : List Char × Nat) (i : Nat)
    (s : List Char),
    keys[i]? = some s → editDistance q s < b.2 →
    (∀ s' ∈ keys, editDistance q s ≤ editDistance q s') →
    (∀ (j : Nat) (s' : List Char), j < i → keys[j]? = some s' →
      editDistance q s < editDistance q s') →
    (keys.foldl (nearStep q) b).1 = s := by
  intro keys
  induction keys with
  | nil =>
      intro b i s hi
      exact absurd hi (by simp)
  | cons kk rest ih =>
      intro b i s hi hlt hmin hfirst
      cases i with
      | zero =>
          obtain rfl : kk = s := by
            rw [List.getElem?_cons_zero] at hi
            injection hi
          have hstep : nearStep q b kk = (kk, editDistance q kk) := by
            unfold nearStep
            rw [if_pos hlt]
          show (rest.foldl (nearStep q) (nearStep q b kk)).1 = kk
          rw [hstep, nearFold_min rest _
            (fun s2 hs2 => hmin s2 (List.mem_cons_of_mem _ hs2))]
      | succ i =>
          rw [List.getElem?_cons_succ] at hi
          have hkk : editDistance q s < editDistance q kk :=
            hfirst 0 kk (by omega) List.getElem?_cons_zero
          show (rest.foldl (nearStep q) (nearStep q b kk)).1 = s
          have hlt2 : editDistance q s < (nearStep q b kk).2 := by
            unfold nearStep
            by_cases hc : editDistance q kk < b.2
            · rw [if_pos hc]
              exact hkk
            · rw [if_neg hc]
              exact hlt
          refine ih _ i s hi hlt2
            (fun s2 hs2 => hmin s2 (List.mem_cons_of_mem _ hs2)) ?_
          intro j s2 hj hjs
          exact hfirst (j + 1) s2 (by omega)
            (by rw [List.getElem?_cons_succ]; exact hjs)

/-- C8: `NearMatch` seeds the best distance at the query's length and
accepts only strictly smaller distances, so it returns the empty string
when no stored key beats the seed; otherwise it returns the key that is
minimal over the snapshot with every earlier snapshot key strictly worse
— i.e. ties resolve to the first key of the ascending (sorted) snapshot,
the lexicographically smallest. -/
theorem claim_C8 {V : Type v} (d : tDictionary V) (name : List Char) :
    ((∀ s ∈ (d.m_hash.AsLists).1,
        name.length ≤ editDistance name s) →
      d.NearMatch name = []) ∧
    (∀ (i : Nat) (s : List Char), (d.m_hash.AsLists).1[i]? = some s →
      editDistance name s < name.length →
      (∀ s' ∈ (d.m_hash.AsLists).1,
        editDistance name s ≤ editDistance name s') →
      (∀ (j : Nat) (s' : List Char), j < i →
        (d.m_hash.AsLists).1[j]? = some s' →
        editDistance name s < editDistance name s') →
      d.NearMatch name = s) ∧
    List.Sorted (· ≤ ·) (d.m_hash.AsLists).1 := by
  refine ⟨?_, ?_, d.m_hash.AsLists_spec.1⟩
  · intro hall
    show ((d.m_hash.AsLists).1.foldl (nearStep name)
      ([], name.length)).1 = []
    rw [nearFold_min _ _ hall]
  · intro i s hi hlt hmin hfirst
    exact nearFold_first _ _ i s hi hlt hmin hfirst

/-- Witness for C8: the spec's tie-break example — against keys "bat" and
"cats" (both at distance 1), NearMatch("cat") returns "bat", the first in
ascending order. -/
theorem claim_C8_witness :
    (((tDictionary.init Nat 3).Add
        (['c', 'a', 't', 's'] : List Char) 1).Add
        (['b', 'a', 't'] : List Char) 2).NearMatch
      (['c', 'a', 't'] : List Char) = ['b', 'a', 't'] :=
  (claim_C8 (((tDictionary.init Nat 3).Add
      (['c', 'a', 't', 's'] : List Char) 1).Add
      (['b', 'a', 't'] : List Char) 2)
    (['c', 'a', 't'] : List Char)).2.1 0 ['b', 'a', 't']
    (by decide) (by decide) (by decide)
    (fun j s' hj _ => absurd hj (Nat.not_lt_zero j))

/-! ### Claim C9: Load -/

/-- Splitting at the first occurrence of the separator: the scan keeps
exactly the separator-free prefix and leaves the separator with the
remainder. -/
theorem split_at_sep {assign : Char} :
    ∀ {kl : List Char} (restl : List Char), assign ∉ kl →
    ((kl ++ assign :: restl).takeWhile fun ch => ch ≠ assign) = kl ∧
      ((kl ++ assign :: restl).dropWhile fun ch => ch ≠ assign) =
        assign :: restl := by
  intro kl
  induction kl with
  | nil =>
      intro restl _
      constructor
      · show List.takeWhile _ (assign :: restl) = []
        simp [List.takeWhile_cons]
      · show List.dropWhile _ (assign :: restl) = assign :: restl
        simp [List.dropWhile_cons]
  | cons c kl ih =>
      intro restl hmem
      have hc : c ≠ assign := fun hcc => hmem (hcc ▸
        List.mem_cons_self c kl)
      have hrec := ih restl (fun hm => hmem (List.mem_cons_of_mem c hm))
      constructor
      · show List.takeWhile _ (c :: (kl ++ assign :: restl)) = _
        rw [List.takeWhile_cons, if_pos (by simp [hc]), hrec.1]
      · show List.dropWhile _ (c :: (kl ++ assign :: restl)) = _
        rw [List.dropWhile_cons, if_pos (by simp [hc]), hrec.2]

/-- C9: `Load` splits the input at the first separator into a key and a
remainder, converts the remainder, and upserts the key via `SetValue`
with the converted value; a failed conversion is propagated as `none`
instead of storing anything. -/
theorem claim_C9 {V : Type v} (conv : List Char → Option V)
    (d : tDictionary V) (assign : Char) (kl restl : List Char)
    (hsep : assign ∉ kl) :
    (conv restl = none →
        d.Load conv (kl ++ assign :: restl) assign = none) ∧
      (∀ v : V, conv restl = some v →
        d.Load conv (kl ++ assign :: restl) assign =
          some (d.SetValue kl v)) := by
  obtain ⟨h1, h2⟩ := split_at_sep restl hsep
  constructor
  · intro hconv
    unfold tDictionary.Load
    rw [h1, h2]
    show (match conv restl with
      | none => none
      | some value => some (d.SetValue kl value)) = none
    rw [hconv]
  · intro v hconv
    unfold tDictionary.Load
    rw [h1, h2]
    show (match conv restl with
      | none => none
      | some value => some (d.SetValue kl value)) = _
    rw [hconv]

/-- Witness for C9: loading "x=42" stores 42 under "x"; loading an
unparseable remainder is an error. -/
theorem claim_C9_witness :
    ((fun r : List Char => if r = ['4', '2'] then some (42 : Nat)
        else none) ['4', '2'] = none →
      (tDictionary.init Nat 3).Load
        (fun r : List Char => if r = ['4', '2'] then some 42 else none)
        (['x'] ++ '=' :: ['4', '2']) '=' = none) ∧
      (∀ v : Nat, (fun r : List Char =>
          if r = ['4', '2'] then some (42 : Nat) else none) ['4', '2'] =
          some v →
        (tDictionary.init Nat 3).Load
          (fun r : List Char =>
            if r = ['4', '2'] then some 42 else none)
          (['x'] ++ '=' :: ['4', '2']) '=' =
          some ((tDictionary.init Nat 3).SetValue ['x'] v)) :=
  claim_C9 (fun r : List Char => if r = ['4', '2'] then some 42
      else none)
    (tDictionary.init Nat 3) '=' ['x'] ['4', '2'] (by decide)

end Avida
